import Mathlib

/-!
Shallow embedding of the Go-board rules logic of `src/src/app/page.tsx` /
`src/unnamed/part_000` (the `Home` component): the `getGroup` group analyzer,
the `handleCellClick` move resolver and session update, and the
`handlePass` / `handleResign` / `handleReset` transitions.

JavaScript semantics are modelled explicitly:
- array indexing `a[i]` yields `undefined` out of range, which we model with
  `Option` (`jsIndex`); reading a property of `undefined` throws a
  `TypeError`, which we model with the explicit `ClickResult.typeError`
  outcome;
- `Set` objects are modelled as duplicate-free lists (`sinsert`);
- React `setX` state updates are modelled by returning the updated
  `GameState`; the stale-closure reads of `blackScore` / `whiteScore` in the
  final-scoring branch are reproduced faithfully (the final score reads the
  pre-move tallies);
- toast notifications are modelled as a list of emitted `ToastMsg` values.
-/

namespace GoDojo

/-- The two players, source type `Player = 'black' | 'white'`. -/
inductive Player where
  | black
  | white
deriving DecidableEq, Repr

/-- `currentPlayer === 'black' ? 'white' : 'black'`. -/
def opponentOf : Player → Player
  | Player.black => Player.white
  | Player.white => Player.black

/-- A board position `(row, col)`. JS numbers at these call sites are
integers (possibly negative, e.g. neighbors of row 0), so `Int`. -/
abbrev Pos := Int × Int

/-- Source type `Board = (Player | null)[][]`. `none` is `null` (empty
intersection). Rows beyond the list model absent indices (`undefined`). -/
abbrev Board := List (List (Option Player))

/-- `const BOARD_SIZE = 19`. -/
def BOARD_SIZE : Nat := 19

/-- JS array read `l[i]`: `undefined` (here `none`) when out of range. -/
def jsIndex (l : List α) (i : Int) : Option α :=
  if h : 0 ≤ i ∧ i.toNat < l.length then some (l.get ⟨i.toNat, h.2⟩) else none

/-- Two-level read `board[r][c]` (and `board[r]?.[c]`): `none` models
`undefined` (row or cell index out of range), `some none` models `null`
(empty intersection), `some (some p)` a stone. -/
def readCell (b : Board) (r c : Int) : Option (Option Player) :=
  (jsIndex b r).bind fun row => jsIndex row c

/-- The stone at `(r, c)` if any; collapses `undefined` and `null` (both are
falsy and both fail `=== player`), as in `targetBoard[r]?.[c]`. -/
def optCell (b : Board) (r c : Int) : Option Player :=
  (readCell b r c).bind id

/-- The in-bounds test used throughout the source:
`0 <= r && r < BOARD_SIZE && 0 <= c && c < BOARD_SIZE`. -/
def inB (r c : Int) : Prop :=
  0 ≤ r ∧ r < (BOARD_SIZE : Int) ∧ 0 ≤ c ∧ c < (BOARD_SIZE : Int)

instance (r c : Int) : Decidable (inB r c) := by
  unfold inB; infer_instance

/-- `Set.add`: insert a key if not already present (JS `Set` dedups). -/
def sinsert (p : Pos) (l : List Pos) : List Pos :=
  if p ∈ l then l else p :: l

/-- The neighbor list `[[r-1,c],[r+1,c],[r,c-1],[r,c+1]]`. -/
def neighborsOf (p : Pos) : List Pos :=
  [(p.1 - 1, p.2), (p.1 + 1, p.2), (p.1, p.2 - 1), (p.1, p.2 + 1)]

/-- One step of the neighbor loop in `getGroup`: a bounds-checked neighbor
that is `null` joins the liberties, a same-color unvisited neighbor is
enqueued. The accumulator is `(liberties, queue)`. -/
def scanNeighbor (b : Board) (player : Player) (visited : List Pos)
    (acc : List Pos × List Pos) (n : Pos) : List Pos × List Pos :=
  if inB n.1 n.2 then
    if readCell b n.1 n.2 = some none then (sinsert n acc.1, acc.2)
    else if optCell b n.1 n.2 = some player ∧ n ∉ visited then
      (acc.1, acc.2 ++ [n])
    else acc
  else acc

/-- The `while (q.length > 0)` BFS of `getGroup`, with explicit fuel (the
loop provably terminates; `FUEL` below dominates the loop measure).
State: queue, `visitedThisSearch`, `stones`, `liberties`. -/
def bfs (b : Board) (player : Player) :
    Nat → List Pos → List Pos → List Pos → List Pos → List Pos × List Pos
  | 0, _, _, stones, libs => (stones, libs)
  | _ + 1, [], _, stones, libs => (stones, libs)
  | fuel + 1, p :: rest, visited, stones, libs =>
    if p ∈ visited then bfs b player fuel rest visited stones libs
    else if inB p.1 p.2 ∧ optCell b p.1 p.2 = some player then
      let acc := (neighborsOf p).foldl (scanNeighbor b player (p :: visited)) (libs, rest)
      bfs b player fuel acc.2 (p :: visited) (sinsert p stones) acc.1
    else bfs b player fuel rest (p :: visited) stones libs

/-- Fuel bound: `5 * 19 * 19 + 1`, an upper bound for the BFS loop measure
`5 * |grid \ visited| + |queue|` at the initial call. -/
def FUEL : Nat := 1806

/-- `getGroup(targetBoard, r, c)`: the maximal same-color group through
`(r, c)` and its liberties; `(∅, ∅)` when the start cell holds no stone
(`if (!player) return ...`). -/
def getGroup (b : Board) (r c : Int) : List Pos × List Pos :=
  match optCell b r c with
  | none => ([], [])
  | some player => bfs b player FUEL [(r, c)] [] [] []

/-- In-range cell write `b[r][c] = v` (the source only ever writes cells it
has just read, so the out-of-range fallback `b` is never taken). -/
def setCell (b : Board) (r c : Int) (v : Option Player) : Board :=
  match jsIndex b r with
  | none => b
  | some row => b.set r.toNat (row.set c.toNat v)

/-- Removal loop body for one captured group: null out each stone that is
still an opponent stone, counting the removals
(`if (tempBoard[sr][sc] === opponent) { ... = null; captured++; }`). -/
def removeStones (opp : Player) (stones : List Pos) (acc : Board × Nat) : Board × Nat :=
  stones.foldl
    (fun a s =>
      if optCell a.1 s.1 s.2 = some opp then (setCell a.1 s.1 s.2 none, a.2 + 1) else a)
    acc

/-- One neighbor of the capture scan in `handleCellClick`: if the neighbor
is an in-bounds opponent stone whose group has zero liberties, remove the
group and add its stones to the running capture count. -/
def captureStep (opp : Player) (acc : Board × Nat) (n : Pos) : Board × Nat :=
  if inB n.1 n.2 ∧ optCell acc.1 n.1 n.2 = some opp then
    if (getGroup acc.1 n.1 n.2).2 = [] then
      removeStones opp (getGroup acc.1 n.1 n.2).1 acc
    else acc
  else acc

/-- The capture scan: fold `captureStep` over the four neighbors of the
placed stone, starting from the tentative board and a zero count. -/
def captureScan (b : Board) (r c : Int) (opp : Player) : Board × Nat :=
  (neighborsOf (r, c)).foldl (captureStep opp) (b, 0)

/-- One cell of the final `isBoardFull` / stone-count double loop:
`null` clears the full flag, stones are tallied, `undefined` does nothing. -/
def cellScan (acc : Bool × Nat × Nat) (cell : Option (Option Player)) : Bool × Nat × Nat :=
  match cell with
  | some none => (false, acc.2)
  | some (some Player.black) => (acc.1, acc.2.1 + 1, acc.2.2)
  | some (some Player.white) => (acc.1, acc.2.1, acc.2.2 + 1)
  | none => acc

/-- All `(r, c)` with `0 ≤ r, c < BOARD_SIZE` in the source's loop order. -/
def allPts : List Pos :=
  (List.range BOARD_SIZE).flatMap fun (r : Nat) =>
    (List.range BOARD_SIZE).map fun (c : Nat) => ((r : Int), (c : Int))

/-- The `isBoardFull` / `blackStonesCount` / `whiteStonesCount` scan. -/
def boardScan (b : Board) : Bool × Nat × Nat :=
  allPts.foldl (fun acc p => cellScan acc (readCell b p.1 p.2)) (true, 0, 0)

/-- The React state of the `Home` component that the engine manipulates. -/
structure GameState where
  board : Board
  currentPlayer : Player
  gameOver : Bool
  winner : Option Player
  blackScore : Nat
  whiteScore : Nat
deriving DecidableEq, Repr

/-- The toast notifications the handlers can emit. -/
inductive ToastMsg where
  | invalidMove
  | capture (n : Nat)
  | gameOverWin (p : Player)
  | gameOverDraw
  | passed (p : Player)
  | resigned (p : Player)
  | resetMsg
deriving DecidableEq, Repr

/-- How a click on `(r, c)` resolves. `typeError` models the JS `TypeError`
thrown by `board[r][c]` when `board[r]` is `undefined` (row out of range);
`ignored` models the silent `return` (game over, occupied cell, or an
`undefined` cell read compared with `!== null`). -/
inductive ClickResult where
  | typeError
  | ignored
  | rejectedSuicide
  | accepted
deriving DecidableEq, Repr

/-- The accepted-move tail of `handleCellClick`: commit the post-capture
board, add the captures to the mover's tally, emit the capture toast, and
run the terminal evaluation (board-full check, final scoring with the
stale closure reads of `blackScore` / `whiteScore`, winner/draw) or flip
the turn. -/
def commitClick (s : GameState) (b2 : Board) (cap : Nat) (opp : Player) :
    GameState × List ToastMsg :=
  let s1 : GameState :=
    { s with
      board := b2
      blackScore := if s.currentPlayer = Player.black then s.blackScore + cap else s.blackScore
      whiteScore := if s.currentPlayer = Player.white then s.whiteScore + cap else s.whiteScore }
  let capToasts := if 0 < cap then [ToastMsg.capture cap] else []
  let scanRes := boardScan b2
  if scanRes.1 then
    let finalBlackScore := scanRes.2.1 + s.blackScore
    let finalWhiteScore := scanRes.2.2 + s.whiteScore
    let gameWinner : Option Player :=
      if finalWhiteScore < finalBlackScore then some Player.black
      else if finalBlackScore < finalWhiteScore then some Player.white
      else none
    match gameWinner with
    | some w =>
      ({ s1 with gameOver := true, winner := some w },
        capToasts ++ [ToastMsg.gameOverWin w])
    | none =>
      ({ s1 with gameOver := true }, capToasts ++ [ToastMsg.gameOverDraw])
  else
    ({ s1 with currentPlayer := opp }, capToasts)

/-- `handleCellClick(rowIndex, colIndex)`: guard, tentative placement,
capture scan, suicide check, then `commitClick`, returning the click
outcome, the resulting state and the emitted toasts. -/
def handleCellClick (s : GameState) (r c : Int) : ClickResult × GameState × List ToastMsg :=
  if s.gameOver then (ClickResult.ignored, s, [])
  else
    match jsIndex s.board r with
    | none => (ClickResult.typeError, s, [])
    | some row =>
      match jsIndex row c with
      | none => (ClickResult.ignored, s, [])
      | some (some _) => (ClickResult.ignored, s, [])
      | some none =>
        let tempBoard := setCell s.board r c (some s.currentPlayer)
        let opp := opponentOf s.currentPlayer
        let scanned := captureScan tempBoard r c opp
        let b2 := scanned.1
        let cap := scanned.2
        let myLibs := (getGroup b2 r c).2
        if myLibs = [] ∧ cap = 0 then
          (ClickResult.rejectedSuicide, s, [ToastMsg.invalidMove])
        else
          (ClickResult.accepted, commitClick s b2 cap opp)

/-- `handlePass`: no-op when the game is over, otherwise flip the turn. -/
def handlePass (s : GameState) : GameState × List ToastMsg :=
  if s.gameOver then (s, [])
  else ({ s with currentPlayer := opponentOf s.currentPlayer }, [ToastMsg.passed s.currentPlayer])

/-- `handleResign`: no-op when over, otherwise finish with the opponent as
winner. -/
def handleResign (s : GameState) : GameState × List ToastMsg :=
  if s.gameOver then (s, [])
  else ({ s with gameOver := true, winner := some (opponentOf s.currentPlayer) },
    [ToastMsg.resigned s.currentPlayer])

/-- `createEmptyBoard()`. -/
def createEmptyBoard : Board :=
  List.replicate BOARD_SIZE (List.replicate BOARD_SIZE none)

/-- The initial component state: empty board, Black to move, no captures. -/
def initialState : GameState :=
  { board := createEmptyBoard
    currentPlayer := Player.black
    gameOver := false
    winner := none
    blackScore := 0
    whiteScore := 0 }

/-- `handleReset`: restore the initial state. -/
def handleReset (_ : GameState) : GameState × List ToastMsg :=
  (initialState, [ToastMsg.resetMsg])

/-- User operations on a session. -/
inductive Op where
  | click (r c : Int)
  | pass
  | resign
  | reset

/-- The state transition of one operation. -/
def applyOp (s : GameState) : Op → GameState
  | Op.click r c => (handleCellClick s r c).2.1
  | Op.pass => (handlePass s).1
  | Op.resign => (handleResign s).1
  | Op.reset => (handleReset s).1

/-- Run a list of operations in order. -/
def runOps (s : GameState) : List Op → GameState
  | [] => s
  | op :: rest => runOps (applyOp s op) rest

/-- States reachable from the initial state through the UI handlers. -/
inductive Reachable : GameState → Prop
  | init : Reachable initialState
  | step {s : GameState} : Reachable s → ∀ op, Reachable (applyOp s op)

/-! ### Abstract (relational) view of boards and groups, used to state and
prove the characterization of `getGroup`. -/

/-- `p` holds a stone of `player` on the playable grid: the conjunction the
BFS loop body tests before treating a cell as part of the group. -/
def stoneP (b : Board) (player : Player) (p : Pos) : Prop :=
  inB p.1 p.2 ∧ optCell b p.1 p.2 = some player

/-- `p` is an in-bounds empty (`null`) intersection: the condition for a
neighbor to join `liberties`. -/
def libCell (b : Board) (p : Pos) : Prop :=
  inB p.1 p.2 ∧ readCell b p.1 p.2 = some none

instance (b : Board) (player : Player) (p : Pos) : Decidable (stoneP b player p) := by
  unfold stoneP; infer_instance

instance (b : Board) (p : Pos) : Decidable (libCell b p) := by
  unfold libCell; infer_instance

/-- 4-adjacency as the source generates it: `y` is one of the four
orthogonal neighbors of `x`. -/
def adjTo (x y : Pos) : Prop :=
  y ∈ neighborsOf x

/-- One connectivity step inside a group of `player`'s stones. -/
def groupStep (b : Board) (player : Player) (x y : Pos) : Prop :=
  adjTo x y ∧ stoneP b player y

/-- `y` is connected to `x` through `player`'s stones (reflexive-transitive
closure of `groupStep`). -/
def Reach (b : Board) (player : Player) (x y : Pos) : Prop :=
  Relation.ReflTransGen (groupStep b player) x y

/-- The playable grid `[0, 19) × [0, 19)` as a finite set (for the BFS
termination measure). -/
def grid : Finset Pos :=
  Finset.Icc (0 : Int) 18 ×ˢ Finset.Icc (0 : Int) 18

/-- BFS loop measure: every iteration strictly decreases it. -/
def mu (q visited : List Pos) : Nat :=
  5 * (grid \ visited.toFinset).card + q.length

/-- The inductive invariant of the `getGroup` BFS loop, for a search rooted
at `s₀`. -/
structure BfsInv (b : Board) (player : Player) (s₀ : Pos)
    (q visited stones libs : List Pos) : Prop where
  hq : ∀ p ∈ q, stoneP b player p ∧ Reach b player s₀ p
  hvs : ∀ p ∈ visited, p ∈ stones
  hsv : ∀ p ∈ stones, p ∈ visited
  hs : ∀ p ∈ stones, stoneP b player p ∧ Reach b player s₀ p
  hcl : ∀ x ∈ stones, ∀ y, adjTo x y →
    (stoneP b player y → y ∈ stones ∨ y ∈ q) ∧ (libCell b y → y ∈ libs)
  hlib : ∀ l ∈ libs, libCell b l ∧ ∃ x ∈ stones, adjTo x l
  hstart : s₀ ∈ stones ∨ s₀ ∈ q
  hnds : stones.Nodup
  hndl : libs.Nodup
  hndv : visited.Nodup

/-- A well-formed `BOARD_SIZE × BOARD_SIZE` board, the shape every board
produced by the component actually has (`createEmptyBoard` and full-row
copies preserve it). -/
def proper (b : Board) : Prop :=
  b.length = BOARD_SIZE ∧ ∀ row ∈ b, row.length = BOARD_SIZE

instance (b : Board) : Decidable (proper b) := by
  unfold proper; infer_instance

/-! ### Definitions for capture-tally accounting (claim C7). -/

/-- The capture count the scan of a click at `(r, c)` would produce. -/
def clickCaptures (s : GameState) (r c : Int) : Nat :=
  (captureScan (setCell s.board r c (some s.currentPlayer)) r c (opponentOf s.currentPlayer)).2

/-- The player's capture tally in a state. -/
def scoreOf (pl : Player) (s : GameState) : Nat :=
  match pl with
  | Player.black => s.blackScore
  | Player.white => s.whiteScore

/-- How much an operation adds to `pl`'s capture tally: the scan's capture
count for an accepted click made by `pl`, zero otherwise. -/
def gainOf (pl : Player) (s : GameState) : Op → Nat
  | Op.click r c =>
    if (handleCellClick s r c).1 = ClickResult.accepted ∧ s.currentPlayer = pl then
      clickCaptures s r c
    else 0
  | _ => 0

/-- Total gain of `pl` over a run of operations. -/
def totalGain (pl : Player) : GameState → List Op → Nat
  | _, [] => 0
  | s, op :: rest => gainOf pl s op + totalGain pl (applyOp s op) rest

/-- `n` consecutive passes (claim C8). -/
def passIter : Nat → GameState → GameState
  | 0, s => s
  | n + 1, s => passIter n (handlePass s).1

/-- `b'` is `b` with some cells of `opp` erased to `null` and nothing else
changed: the relation every capture-scan step preserves. -/
def opponentErased (opp : Player) (b b' : Board) : Prop :=
  ∀ r c : Int, readCell b' r c = readCell b r c ∨
    (optCell b r c = some opp ∧ readCell b' r c = some none)

/-- Every stone on the playable grid belongs to a group with at least one
liberty (claim C9's invariant). -/
def noDeadGroups (b : Board) : Prop :=
  ∀ p : Pos, inB p.1 p.2 → ∀ pl : Player, optCell b p.1 p.2 = some pl →
    (getGroup b p.1 p.2).2 ≠ []

/-! ### Concrete boards used by the witnesses. -/

/-- Lone white stone at (1,1) surrounded by three black stones; Black
playing (2,1) captures it (spec end-to-end scenario 2). -/
def bCapture : Board :=
  setCell (setCell (setCell (setCell createEmptyBoard
    1 1 (some Player.white)) 0 1 (some Player.black)) 1 0 (some Player.black))
    1 2 (some Player.black)

/-- White stones on all four neighbors of the empty point (5,5); Black
playing (5,5) is suicide (spec end-to-end scenario 3). -/
def bSuicide : Board :=
  setCell (setCell (setCell (setCell createEmptyBoard
    4 5 (some Player.white)) 6 5 (some Player.white)) 5 4 (some Player.white))
    5 6 (some Player.white)

/-- Snapback corner: Black playing (0,0) has zero liberties before captures
but removes the two white stones at (0,1) and (1,0). -/
def bSnapback : Board :=
  setCell (setCell (setCell (setCell (setCell createEmptyBoard
    0 2 (some Player.black)) 1 1 (some Player.black)) 2 0 (some Player.black))
    0 1 (some Player.white)) 1 0 (some Player.white)

/-- Two connected black stones at (0,0) and (0,1). -/
def bPair : Board :=
  setCell (setCell createEmptyBoard 0 0 (some Player.black)) 0 1 (some Player.black)

/-- In-progress sessions holding the witness boards, Black to move. -/
def sPair : GameState := { initialState with board := bPair }

def sCapture : GameState := { initialState with board := bCapture }

def sSuicide : GameState := { initialState with board := bSuicide }

def sSnapback : GameState := { initialState with board := bSnapback }

/-! ## Basic lemmas: JS indexing, cell reads and writes -/

theorem jsIndex_neg {α : Type} {l : List α} {i : Int} (h : i < 0) : jsIndex l i = none := by
  unfold jsIndex
  rw [dif_neg]
  rintro ⟨h0, -⟩
  omega

theorem jsIndex_nonneg {α : Type} {l : List α} {i : Int} (h : 0 ≤ i) :
    jsIndex l i = l[i.toNat]? := by
  unfold jsIndex
  split
  · next hh => rw [List.getElem?_eq_getElem hh.2, List.get_eq_getElem]
  · next hh =>
    rw [List.getElem?_eq_none]
    omega

theorem jsIndex_eq_some_iff {α : Type} {l : List α} {i : Int} {x : α} :
    jsIndex l i = some x ↔ 0 ≤ i ∧ ∃ h : i.toNat < l.length, l.get ⟨i.toNat, h⟩ = x := by
  constructor
  · intro h
    unfold jsIndex at h
    by_cases hh : 0 ≤ i ∧ i.toNat < l.length
    · rw [dif_pos hh] at h
      exact ⟨hh.1, hh.2, Option.some.inj h⟩
    · rw [dif_neg hh] at h
      exact absurd h (by simp)
  · rintro ⟨h0, hlt, rfl⟩
    unfold jsIndex
    rw [dif_pos ⟨h0, hlt⟩]

theorem readCell_eq_some_iff {b : Board} {r c : Int} {x : Option Player} :
    readCell b r c = some x ↔ ∃ row, jsIndex b r = some row ∧ jsIndex row c = some x := by
  unfold readCell
  cases jsIndex b r <;> simp

theorem readCell_nonneg_left {b : Board} {r c : Int} {x : Option Player}
    (h : readCell b r c = some x) : 0 ≤ r ∧ 0 ≤ c := by
  rcases readCell_eq_some_iff.mp h with ⟨row, hr, hc⟩
  exact ⟨(jsIndex_eq_some_iff.mp hr).1, (jsIndex_eq_some_iff.mp hc).1⟩

theorem optCell_eq_some_iff {b : Board} {r c : Int} {p : Player} :
    optCell b r c = some p ↔ readCell b r c = some (some p) := by
  unfold optCell
  cases h : readCell b r c with
  | none => simp
  | some v => cases v <;> simp

theorem optCell_of_readCell_none {b : Board} {r c : Int}
    (h : readCell b r c = some none) : optCell b r c = none := by
  unfold optCell; rw [h]; rfl

/-- Writing at `(r, c)` (with `0 ≤ r, c`, as at every source write site)
leaves every other cell unchanged. -/
theorem readCell_setCell_ne {b : Board} {r c : Int} {v : Option Player}
    (hr : 0 ≤ r) (hc : 0 ≤ c) {r' c' : Int} (h : (r', c') ≠ (r, c)) :
    readCell (setCell b r c v) r' c' = readCell b r' c' := by
  unfold setCell
  cases hjr : jsIndex b r with
  | none => rfl
  | some row =>
    rcases jsIndex_eq_some_iff.mp hjr with ⟨-, hlt, hget⟩
    rw [List.get_eq_getElem] at hget
    unfold readCell
    rcases lt_or_le r' 0 with hr' | hr'
    · rw [jsIndex_neg hr', jsIndex_neg hr']
    rcases eq_or_ne r' r with rfl | hne
    · -- same row, so c' ≠ c
      have hcc : c' ≠ c := by
        intro hcc
        exact h (by rw [hcc])
      rw [jsIndex_nonneg hr', jsIndex_nonneg hr',
        List.getElem?_set_self (by omega), List.getElem?_eq_getElem hlt, hget]
      simp only [Option.some_bind]
      rcases lt_or_le c' 0 with hc' | hc'
      · rw [jsIndex_neg hc', jsIndex_neg hc']
      · rw [jsIndex_nonneg hc', jsIndex_nonneg hc', List.getElem?_set_ne (by omega)]
    · -- different row
      rw [jsIndex_nonneg hr', jsIndex_nonneg hr', List.getElem?_set_ne (by omega)]

/-- Writing at an existing cell makes that cell read back the new value. -/
theorem readCell_setCell_self {b : Board} {r c : Int} {v x : Option Player}
    (h : readCell b r c = some x) :
    readCell (setCell b r c v) r c = some v := by
  rcases readCell_eq_some_iff.mp h with ⟨row, hjr, hjc⟩
  rcases jsIndex_eq_some_iff.mp hjr with ⟨hr0, hrlt, hrget⟩
  rcases jsIndex_eq_some_iff.mp hjc with ⟨hc0, hclt, -⟩
  unfold setCell
  rw [hjr]
  unfold readCell
  rw [jsIndex_nonneg hr0, List.getElem?_set_self hrlt]
  simp only [Option.some_bind]
  rw [jsIndex_nonneg hc0, List.getElem?_set_self hclt]

/-- Cells already holding `none` keep holding `none` after any write of
`none` (used for capture-scan monotonicity). -/
theorem readCell_setCell_none_mono {b : Board} {r c : Int}
    (hr : 0 ≤ r) (hc : 0 ≤ c) {r' c' : Int}
    (h : readCell b r' c' = some none) :
    readCell (setCell b r c none) r' c' = some none := by
  rcases eq_or_ne (r', c') (r, c) with he | hne
  · rw [show r' = r from congrArg Prod.fst he, show c' = c from congrArg Prod.snd he] at h ⊢
    exact readCell_setCell_self h
  · rw [readCell_setCell_ne hr hc hne]
    exact h

/-! ## Basic lemmas: adjacency and reachability -/

theorem mem_neighborsOf {x y : Pos} :
    y ∈ neighborsOf x ↔
      y = (x.1 - 1, x.2) ∨ y = (x.1 + 1, x.2) ∨ y = (x.1, x.2 - 1) ∨ y = (x.1, x.2 + 1) := by
  simp [neighborsOf]

theorem adjTo_symm {x y : Pos} (h : adjTo x y) : adjTo y x := by
  obtain ⟨x1, x2⟩ := x
  obtain ⟨y1, y2⟩ := y
  unfold adjTo at h ⊢
  rw [mem_neighborsOf] at h ⊢
  simp only [Prod.mk.injEq] at h ⊢
  omega

theorem reach_stoneP {b : Board} {player : Player} {a x : Pos}
    (ha : stoneP b player a) (h : Reach b player a x) : stoneP b player x := by
  induction h with
  | refl => exact ha
  | tail _ hstep _ => exact hstep.2

theorem reach_symm {b : Board} {player : Player} {a x : Pos}
    (ha : stoneP b player a) (h : Reach b player a x) : Reach b player x a := by
  induction h with
  | refl => exact Relation.ReflTransGen.refl
  | tail hax hstep ih =>
    have hx := reach_stoneP ha hax
    exact Relation.ReflTransGen.trans
      (Relation.ReflTransGen.single ⟨adjTo_symm hstep.1, hx⟩) ih

theorem mem_grid {p : Pos} : p ∈ grid ↔ inB p.1 p.2 := by
  unfold grid inB BOARD_SIZE
  rw [Finset.mem_product, Finset.mem_Icc, Finset.mem_Icc]
  omega

/-! ## Basic lemmas: `sinsert` and the BFS -/

theorem mem_sinsert {p q : Pos} {l : List Pos} : q ∈ sinsert p l ↔ q = p ∨ q ∈ l := by
  unfold sinsert
  split
  · next h =>
    constructor
    · exact Or.inr
    · rintro (rfl | hq) <;> [exact h; exact hq]
  · simp [List.mem_cons]

theorem nodup_sinsert {p : Pos} {l : List Pos} (h : l.Nodup) : (sinsert p l).Nodup := by
  unfold sinsert
  split
  · exact h
  · next hn => exact List.Nodup.cons hn h

theorem bfs_nil (b : Board) (player : Player) (fuel : Nat) (v s l : List Pos) :
    bfs b player fuel [] v s l = (s, l) := by
  cases fuel <;> rfl

theorem bfs_cons (b : Board) (player : Player) (fuel : Nat) (p : Pos)
    (rest visited stones libs : List Pos) :
    bfs b player (fuel + 1) (p :: rest) visited stones libs =
      if p ∈ visited then bfs b player fuel rest visited stones libs
      else if inB p.1 p.2 ∧ optCell b p.1 p.2 = some player then
        let acc := (neighborsOf p).foldl (scanNeighbor b player (p :: visited)) (libs, rest)
        bfs b player fuel acc.2 (p :: visited) (sinsert p stones) acc.1
      else bfs b player fuel rest (p :: visited) stones libs := rfl

/-! ## One neighbor step of the BFS -/

theorem scanNeighbor_fst_mem {b : Board} {player : Player} {visited : List Pos}
    {acc : List Pos × List Pos} {n l : Pos} :
    l ∈ (scanNeighbor b player visited acc n).1 ↔ l ∈ acc.1 ∨ (l = n ∧ libCell b n) := by
  unfold scanNeighbor
  by_cases h1 : inB n.1 n.2
  · by_cases h2 : readCell b n.1 n.2 = some none
    · rw [if_pos h1, if_pos h2]
      show l ∈ sinsert n acc.1 ↔ _
      rw [mem_sinsert]
      constructor
      · rintro (rfl | h)
        · exact Or.inr ⟨rfl, h1, h2⟩
        · exact Or.inl h
      · rintro (h | ⟨rfl, -⟩)
        · exact Or.inr h
        · exact Or.inl rfl
    · rw [if_pos h1, if_neg h2]
      have hfst :
          (if optCell b n.1 n.2 = some player ∧ n ∉ visited then
            (acc.1, acc.2 ++ [n]) else acc).1 = acc.1 := by
        split <;> rfl
      rw [hfst]
      constructor
      · exact Or.inl
      · rintro (h | ⟨rfl, hlc⟩)
        · exact h
        · exact absurd hlc.2 h2
  · rw [if_neg h1]
    constructor
    · exact Or.inl
    · rintro (h | ⟨rfl, hlc⟩)
      · exact h
      · exact absurd hlc.1 h1

theorem scanNeighbor_snd_mem {b : Board} {player : Player} {visited : List Pos}
    {acc : List Pos × List Pos} {n x : Pos} :
    x ∈ (scanNeighbor b player visited acc n).2 ↔
      x ∈ acc.2 ∨ (x = n ∧ stoneP b player n ∧ n ∉ visited) := by
  unfold scanNeighbor
  by_cases h1 : inB n.1 n.2
  · by_cases h2 : readCell b n.1 n.2 = some none
    · rw [if_pos h1, if_pos h2]
      show x ∈ acc.2 ↔ _
      constructor
      · exact Or.inl
      · rintro (h | ⟨rfl, hsp, -⟩)
        · exact h
        · exact absurd (optCell_eq_some_iff.mp hsp.2) (by rw [h2]; simp)
    · rw [if_pos h1, if_neg h2]
      by_cases h3 : optCell b n.1 n.2 = some player ∧ n ∉ visited
      · rw [if_pos h3]
        show x ∈ acc.2 ++ [n] ↔ _
        rw [List.mem_append, List.mem_singleton]
        constructor
        · rintro (h | rfl)
          · exact Or.inl h
          · exact Or.inr ⟨rfl, ⟨h1, h3.1⟩, h3.2⟩
        · rintro (h | ⟨rfl, -, -⟩)
          · exact Or.inl h
          · exact Or.inr rfl
      · rw [if_neg h3]
        constructor
        · exact Or.inl
        · rintro (h | ⟨rfl, hsp, hnv⟩)
          · exact h
          · exact absurd ⟨hsp.2, hnv⟩ h3
  · rw [if_neg h1]
    constructor
    · exact Or.inl
    · rintro (h | ⟨rfl, hsp, -⟩)
      · exact h
      · exact absurd hsp.1 h1

theorem scanNeighbor_fst_nodup {b : Board} {player : Player} {visited : List Pos}
    {acc : List Pos × List Pos} {n : Pos} (h : acc.1.Nodup) :
    (scanNeighbor b player visited acc n).1.Nodup := by
  unfold scanNeighbor
  split
  · split
    · exact nodup_sinsert h
    · split
      · exact h
      · exact h
  · exact h

theorem scanNeighbor_snd_length {b : Board} {player : Player} {visited : List Pos}
    {acc : List Pos × List Pos} {n : Pos} :
    (scanNeighbor b player visited acc n).2.length ≤ acc.2.length + 1 := by
  unfold scanNeighbor
  split
  · split
    · exact Nat.le_succ _
    · split
      · show (acc.2 ++ [n]).length ≤ _
        rw [List.length_append]
        exact le_refl _
      · exact Nat.le_succ _
  · exact Nat.le_succ _

/-! ## The neighbor fold of one BFS iteration -/

theorem foldl_scanNeighbor_spec (b : Board) (player : Player) (visited : List Pos) :
    ∀ (ns : List Pos) (acc : List Pos × List Pos),
      (∀ l, l ∈ (ns.foldl (scanNeighbor b player visited) acc).1 ↔
        l ∈ acc.1 ∨ (l ∈ ns ∧ libCell b l)) ∧
      (∀ x, x ∈ (ns.foldl (scanNeighbor b player visited) acc).2 ↔
        x ∈ acc.2 ∨ (x ∈ ns ∧ stoneP b player x ∧ x ∉ visited)) ∧
      (acc.1.Nodup → (ns.foldl (scanNeighbor b player visited) acc).1.Nodup) ∧
      (ns.foldl (scanNeighbor b player visited) acc).2.length ≤ acc.2.length + ns.length := by
  intro ns
  induction ns with
  | nil =>
    intro acc
    refine ⟨?_, ?_, fun h => h, ?_⟩ <;> simp
  | cons n ns' ih =>
    intro acc
    rw [List.foldl_cons]
    obtain ⟨ih1, ih2, ih3, ih4⟩ := ih (scanNeighbor b player visited acc n)
    refine ⟨?_, ?_, ?_, ?_⟩
    · intro l
      rw [ih1, scanNeighbor_fst_mem]
      constructor
      · rintro ((h | ⟨rfl, hlc⟩) | ⟨hm, hlc⟩)
        · exact Or.inl h
        · exact Or.inr ⟨List.mem_cons_self _ _, hlc⟩
        · exact Or.inr ⟨List.mem_cons_of_mem _ hm, hlc⟩
      · rintro (h | ⟨hm, hlc⟩)
        · exact Or.inl (Or.inl h)
        · rcases List.mem_cons.mp hm with rfl | hm'
          · exact Or.inl (Or.inr ⟨rfl, hlc⟩)
          · exact Or.inr ⟨hm', hlc⟩
    · intro x
      rw [ih2, scanNeighbor_snd_mem]
      constructor
      · rintro ((h | ⟨rfl, hsp, hnv⟩) | ⟨hm, hsp, hnv⟩)
        · exact Or.inl h
        · exact Or.inr ⟨List.mem_cons_self _ _, hsp, hnv⟩
        · exact Or.inr ⟨List.mem_cons_of_mem _ hm, hsp, hnv⟩
      · rintro (h | ⟨hm, hsp, hnv⟩)
        · exact Or.inl (Or.inl h)
        · rcases List.mem_cons.mp hm with rfl | hm'
          · exact Or.inl (Or.inr ⟨rfl, hsp, hnv⟩)
          · exact Or.inr ⟨hm', hsp, hnv⟩
    · intro h
      exact ih3 (scanNeighbor_fst_nodup h)
    · have h1 := @scanNeighbor_snd_length b player visited acc n
      calc (ns'.foldl (scanNeighbor b player visited)
            (scanNeighbor b player visited acc n)).2.length
          ≤ (scanNeighbor b player visited acc n).2.length + ns'.length := ih4
        _ ≤ acc.2.length + (n :: ns').length := by
            rw [List.length_cons]; omega

/-! ## BFS measure lemmas -/

theorem mu_cons_le (p : Pos) (q visited : List Pos) :
    mu q visited + 1 ≤ mu (p :: q) visited := by
  unfold mu
  rw [List.length_cons]
  omega

theorem mu_visit_not_grid {p : Pos} (hp : ¬ inB p.1 p.2) (q visited : List Pos) :
    mu q (p :: visited) + 1 ≤ mu (p :: q) visited := by
  unfold mu
  rw [List.toFinset_cons, Finset.sdiff_insert,
    Finset.erase_eq_of_not_mem (fun hmem => hp (mem_grid.mp (Finset.mem_sdiff.mp hmem).1)),
    List.length_cons]
  omega

theorem mu_visit_grid {p : Pos} (hp : inB p.1 p.2) {visited : List Pos} (hnv : p ∉ visited)
    {q q' : List Pos} (hlen : q'.length ≤ q.length + 4) :
    mu q' (p :: visited) + 1 ≤ mu (p :: q) visited := by
  unfold mu
  have hpg : p ∈ grid \ visited.toFinset :=
    Finset.mem_sdiff.mpr ⟨mem_grid.mpr hp, fun hm => hnv (List.mem_toFinset.mp hm)⟩
  rw [List.toFinset_cons, Finset.sdiff_insert, Finset.card_erase_of_mem hpg,
    List.length_cons]
  have hpos : 1 ≤ (grid \ visited.toFinset).card := Finset.card_pos.mpr ⟨p, hpg⟩
  omega

/-! ## BFS invariant: preservation and finalization -/

theorem bfsInv_skip {b : Board} {player : Player} {s₀ p : Pos}
    {rest visited stones libs : List Pos}
    (inv : BfsInv b player s₀ (p :: rest) visited stones libs) (hpv : p ∈ visited) :
    BfsInv b player s₀ rest visited stones libs where
  hq x hx := inv.hq x (List.mem_cons_of_mem _ hx)
  hvs := inv.hvs
  hsv := inv.hsv
  hs := inv.hs
  hcl x hx y hy := by
    refine ⟨fun hsp => ?_, (inv.hcl x hx y hy).2⟩
    rcases (inv.hcl x hx y hy).1 hsp with h | h
    · exact Or.inl h
    · rcases List.mem_cons.mp h with rfl | h'
      · exact Or.inl (inv.hvs _ hpv)
      · exact Or.inr h'
  hlib := inv.hlib
  hstart := by
    rcases inv.hstart with h | h
    · exact Or.inl h
    · rcases List.mem_cons.mp h with rfl | h'
      · exact Or.inl (inv.hvs _ hpv)
      · exact Or.inr h'
  hnds := inv.hnds
  hndl := inv.hndl
  hndv := inv.hndv

theorem bfsInv_final {b : Board} {player : Player} {s₀ : Pos}
    {visited stones libs : List Pos}
    (inv : BfsInv b player s₀ [] visited stones libs) :
    (∀ p, p ∈ stones ↔ Reach b player s₀ p) ∧
    (∀ l, l ∈ libs ↔ libCell b l ∧ ∃ x, Reach b player s₀ x ∧ adjTo x l) := by
  have hst : ∀ p, Reach b player s₀ p → p ∈ stones := by
    intro p h
    induction h with
    | refl =>
      rcases inv.hstart with h | h
      · exact h
      · exact absurd h (List.not_mem_nil _)
    | tail _ hstep ih =>
      rcases (inv.hcl _ ih _ hstep.1).1 hstep.2 with h | h
      · exact h
      · exact absurd h (List.not_mem_nil _)
  constructor
  · exact fun p => ⟨fun hp => (inv.hs p hp).2, hst p⟩
  · intro l
    constructor
    · intro hl
      obtain ⟨hlc, x, hxs, hadj⟩ := inv.hlib l hl
      exact ⟨hlc, x, (inv.hs x hxs).2, hadj⟩
    · rintro ⟨hlc, x, hx, hadj⟩
      exact (inv.hcl x (hst x hx) l hadj).2 hlc

theorem bfs_post {b : Board} {player : Player} {s₀ : Pos} :
    ∀ (fuel : Nat) (q visited stones libs : List Pos),
      mu q visited ≤ fuel →
      BfsInv b player s₀ q visited stones libs →
      (∀ p, p ∈ (bfs b player fuel q visited stones libs).1 ↔ Reach b player s₀ p) ∧
      (∀ l, l ∈ (bfs b player fuel q visited stones libs).2 ↔
        libCell b l ∧ ∃ x, Reach b player s₀ x ∧ adjTo x l) ∧
      (bfs b player fuel q visited stones libs).1.Nodup ∧
      (bfs b player fuel q visited stones libs).2.Nodup := by
  intro fuel
  induction fuel with
  | zero =>
    intro q visited stones libs hmu inv
    have hq : q = [] := by
      have hlen : q.length ≤ mu q visited := by unfold mu; omega
      exact List.length_eq_zero.mp (by omega)
    subst hq
    obtain ⟨h1, h2⟩ := bfsInv_final inv
    exact ⟨h1, h2, inv.hnds, inv.hndl⟩
  | succ fuel ih =>
    intro q visited stones libs hmu inv
    cases q with
    | nil =>
      obtain ⟨h1, h2⟩ := bfsInv_final inv
      exact ⟨h1, h2, inv.hnds, inv.hndl⟩
    | cons p rest =>
      rw [bfs_cons]
      by_cases hpv : p ∈ visited
      · rw [if_pos hpv]
        exact ih rest visited stones libs
          (by have := mu_cons_le p rest visited; omega)
          (bfsInv_skip inv hpv)
      · have hsp : stoneP b player p ∧ Reach b player s₀ p :=
          inv.hq p (List.mem_cons_self _ _)
        rw [if_neg hpv, if_pos (id hsp.1 : inB p.1 p.2 ∧ optCell b p.1 p.2 = some player)]
        obtain ⟨hf1, hf2, hf3, hf4⟩ :=
          foldl_scanNeighbor_spec b player (p :: visited) (neighborsOf p) (libs, rest)
        have hpns : p ∉ stones := fun hps => hpv (inv.hsv p hps)
        have hsins : sinsert p stones = p :: stones := by
          unfold sinsert
          rw [if_neg hpns]
        refine ih _ _ _ _ ?_ ?_
        · -- measure decreases
          have := @mu_visit_grid p hsp.1.1 visited hpv rest
            ((neighborsOf p).foldl (scanNeighbor b player (p :: visited)) (libs, rest)).2
            (by simpa [neighborsOf] using hf4)
          omega
        · -- invariant preserved
          rw [hsins]
          refine { hq := ?_, hvs := ?_, hsv := ?_, hs := ?_, hcl := ?_,
                   hlib := ?_, hstart := ?_, hnds := ?_, hndl := ?_, hndv := ?_ }
          ·
            intro x hx
            rcases hf2 x |>.mp hx with hxr | ⟨hxn, hxs, -⟩
            · exact inv.hq x (List.mem_cons_of_mem _ hxr)
            · exact ⟨hxs, Relation.ReflTransGen.tail hsp.2 ⟨hxn, hxs⟩⟩
          ·
            intro x hx
            rcases List.mem_cons.mp hx with rfl | hx'
            · exact List.mem_cons_self _ _
            · exact List.mem_cons_of_mem _ (inv.hvs x hx')
          ·
            intro x hx
            rcases List.mem_cons.mp hx with rfl | hx'
            · exact List.mem_cons_self _ _
            · exact List.mem_cons_of_mem _ (inv.hsv x hx')
          ·
            intro x hx
            rcases List.mem_cons.mp hx with rfl | hx'
            · exact hsp
            · exact inv.hs x hx'
          ·
            intro x hx y hy
            rcases List.mem_cons.mp hx with heq | hx'
            · -- the newly added stone: the fold handled all its neighbors
              rw [heq] at hy
              constructor
              · intro hys
                by_cases hyv : y ∈ p :: visited
                · rcases List.mem_cons.mp hyv with rfl | hyv'
                  · exact Or.inl (List.mem_cons_self _ _)
                  · exact Or.inl (List.mem_cons_of_mem _ (inv.hvs y hyv'))
                · exact Or.inr ((hf2 y).mpr (Or.inr ⟨hy, hys, hyv⟩))
              · intro hyl
                exact (hf1 y).mpr (Or.inr ⟨hy, hyl⟩)
            · -- an old stone: queue and liberty sets only grew
              constructor
              · intro hys
                rcases (inv.hcl x hx' y hy).1 hys with h | h
                · exact Or.inl (List.mem_cons_of_mem _ h)
                · rcases List.mem_cons.mp h with rfl | h'
                  · exact Or.inl (List.mem_cons_self _ _)
                  · exact Or.inr ((hf2 y).mpr (Or.inl h'))
              · intro hyl
                exact (hf1 y).mpr (Or.inl ((inv.hcl x hx' y hy).2 hyl))
          ·
            intro l hl
            rcases (hf1 l).mp hl with hl' | ⟨hln, hlc⟩
            · obtain ⟨hlc, x, hxs, hadj⟩ := inv.hlib l hl'
              exact ⟨hlc, x, List.mem_cons_of_mem _ hxs, hadj⟩
            · exact ⟨hlc, p, List.mem_cons_self _ _, hln⟩
          ·
            rcases inv.hstart with h | h
            · exact Or.inl (List.mem_cons_of_mem _ h)
            · rcases List.mem_cons.mp h with rfl | h'
              · exact Or.inl (List.mem_cons_self _ _)
              · exact Or.inr ((hf2 s₀).mpr (Or.inl h'))
          · exact List.Nodup.cons hpns inv.hnds
          · exact hf3 inv.hndl
          · exact List.Nodup.cons hpv inv.hndv

/-! ## Characterization of `getGroup` -/

theorem grid_card : grid.card = 361 := by
  unfold grid
  rw [Finset.card_product, Int.card_Icc]
  decide

theorem mu_init (p : Pos) : mu [p] [] = FUEL := by
  unfold mu
  rw [List.toFinset_nil, Finset.sdiff_empty, grid_card]
  rfl

theorem bfsInv_init {b : Board} {player : Player} {s₀ : Pos}
    (hs₀ : stoneP b player s₀) : BfsInv b player s₀ [s₀] [] [] [] where
  hq p hp := by
    rw [List.mem_singleton] at hp
    subst hp
    exact ⟨hs₀, Relation.ReflTransGen.refl⟩
  hvs p hp := absurd hp (List.not_mem_nil _)
  hsv p hp := absurd hp (List.not_mem_nil _)
  hs p hp := absurd hp (List.not_mem_nil _)
  hcl x hx := absurd hx (List.not_mem_nil _)
  hlib l hl := absurd hl (List.not_mem_nil _)
  hstart := Or.inr (List.mem_singleton.mpr rfl)
  hnds := List.nodup_nil
  hndl := List.nodup_nil
  hndv := List.nodup_nil

/-- The main `getGroup` specification: on an occupied in-bounds start, the
returned `stones` are exactly the intersections connected to the start
through same-color stones, and the returned `liberties` are exactly the
in-bounds empty cells adjacent to some stone of that component. -/
theorem getGroup_spec {b : Board} {r c : Int} {player : Player}
    (hoc : optCell b r c = some player) (hib : inB r c) :
    (∀ p, p ∈ (getGroup b r c).1 ↔ Reach b player (r, c) p) ∧
    (∀ l, l ∈ (getGroup b r c).2 ↔
      libCell b l ∧ ∃ x, Reach b player (r, c) x ∧ adjTo x l) ∧
    (getGroup b r c).1.Nodup ∧ (getGroup b r c).2.Nodup := by
  have hgg : getGroup b r c = bfs b player FUEL [(r, c)] [] [] [] := by
    unfold getGroup
    rw [hoc]
  rw [hgg]
  exact bfs_post FUEL [(r, c)] [] [] [] (le_of_eq (mu_init (r, c)))
    (bfsInv_init ⟨hib, hoc⟩)

theorem getGroup_of_optCell_none {b : Board} {r c : Int}
    (h : optCell b r c = none) : getGroup b r c = ([], []) := by
  unfold getGroup
  rw [h]

theorem getGroup_of_not_inB {b : Board} {r c : Int} (h : ¬ inB r c) :
    getGroup b r c = ([], []) := by
  cases hoc : optCell b r c with
  | none => exact getGroup_of_optCell_none hoc
  | some player =>
    have hgg : getGroup b r c = bfs b player FUEL [(r, c)] [] [] [] := by
      unfold getGroup
      rw [hoc]
    have hf : FUEL = 1805 + 1 := rfl
    rw [hgg, hf, bfs_cons, if_neg (List.not_mem_nil _),
      if_neg (fun hh : inB r c ∧ _ => h hh.1)]
    exact bfs_nil ..

/-- A nonempty `stones` result certifies an occupied in-bounds start. -/
theorem mem_stones_inv {b : Board} {r c : Int} {p : Pos}
    (hp : p ∈ (getGroup b r c).1) :
    ∃ player, optCell b r c = some player ∧ inB r c := by
  cases hoc : optCell b r c with
  | none =>
    rw [getGroup_of_optCell_none hoc] at hp
    exact absurd hp (List.not_mem_nil _)
  | some player =>
    by_cases hib : inB r c
    · exact ⟨player, rfl, hib⟩
    · rw [getGroup_of_not_inB hib] at hp
      exact absurd hp (List.not_mem_nil _)

/-- Every returned liberty is an in-bounds empty intersection. -/
theorem getGroup_libs_empty {b : Board} {r c : Int} :
    ∀ l ∈ (getGroup b r c).2, libCell b l := by
  intro l hl
  cases hoc : optCell b r c with
  | none =>
    rw [getGroup_of_optCell_none hoc] at hl
    exact absurd hl (List.not_mem_nil _)
  | some player =>
    by_cases hib : inB r c
    · exact ((getGroup_spec hoc hib).2.1 l |>.mp hl).1
    · rw [getGroup_of_not_inB hib] at hl
      exact absurd hl (List.not_mem_nil _)

/-- Restarting `getGroup` from any member of the returned `stones` set
produces the same `stones` and `liberties` sets. -/
theorem getGroup_idem {b : Board} {r c : Int} {p : Pos}
    (hp : p ∈ (getGroup b r c).1) :
    (∀ z, z ∈ (getGroup b p.1 p.2).1 ↔ z ∈ (getGroup b r c).1) ∧
    (∀ z, z ∈ (getGroup b p.1 p.2).2 ↔ z ∈ (getGroup b r c).2) := by
  obtain ⟨player, hoc, hib⟩ := mem_stones_inv hp
  obtain ⟨hst, hlb, -, -⟩ := getGroup_spec hoc hib
  have hreach : Reach b player (r, c) p := (hst p).mp hp
  have hs₀ : stoneP b player (r, c) := ⟨hib, hoc⟩
  have hpp : stoneP b player p := reach_stoneP hs₀ hreach
  obtain ⟨hst2, hlb2, -, -⟩ := getGroup_spec hpp.2 hpp.1
  have hiff : ∀ z, Reach b player p z ↔ Reach b player (r, c) z := by
    intro z
    constructor
    · exact fun h => Relation.ReflTransGen.trans hreach h
    · exact fun h => Relation.ReflTransGen.trans (reach_symm hs₀ hreach) h
  constructor
  · intro z
    rw [hst2 z, hst z, hiff z]
  · intro z
    rw [hlb2 z, hlb z]
    constructor
    · rintro ⟨hlc, x, hx, hadj⟩
      exact ⟨hlc, x, (hiff x).mp hx, hadj⟩
    · rintro ⟨hlc, x, hx, hadj⟩
      exact ⟨hlc, x, (hiff x).mpr hx, hadj⟩

theorem toFinset_eq_of_mem_iff {l1 l2 : List Pos} (h : ∀ z, z ∈ l1 ↔ z ∈ l2) :
    l1.toFinset = l2.toFinset :=
  Finset.ext fun z => by
    rw [List.mem_toFinset, List.mem_toFinset]
    exact h z

/-! ## Case analysis of `handleCellClick` -/

theorem handleCellClick_gameOver {s : GameState} {r c : Int} (h : s.gameOver = true) :
    handleCellClick s r c = (ClickResult.ignored, s, []) := by
  simp [handleCellClick, h]

theorem handleCellClick_rowErr {s : GameState} {r c : Int} (h : s.gameOver = false)
    (hr : jsIndex s.board r = none) :
    handleCellClick s r c = (ClickResult.typeError, s, []) := by
  simp [handleCellClick, h, hr]

theorem handleCellClick_colErr {s : GameState} {r c : Int} {row : List (Option Player)}
    (h : s.gameOver = false) (hr : jsIndex s.board r = some row) (hc : jsIndex row c = none) :
    handleCellClick s r c = (ClickResult.ignored, s, []) := by
  simp [handleCellClick, h, hr, hc]

theorem handleCellClick_occupied {s : GameState} {r c : Int} {row : List (Option Player)}
    {p : Player} (h : s.gameOver = false) (hr : jsIndex s.board r = some row)
    (hc : jsIndex row c = some (some p)) :
    handleCellClick s r c = (ClickResult.ignored, s, []) := by
  simp [handleCellClick, h, hr, hc]

/-- On an in-progress game and an empty target cell, `handleCellClick` is
the suicide check deciding between rejection and `commitClick`. -/
theorem handleCellClick_empty_eq {s : GameState} {r c : Int}
    (h : s.gameOver = false) (hempty : readCell s.board r c = some none) :
    handleCellClick s r c =
      (if (getGroup (captureScan (setCell s.board r c (some s.currentPlayer)) r c
              (opponentOf s.currentPlayer)).1 r c).2 = []
          ∧ (captureScan (setCell s.board r c (some s.currentPlayer)) r c
              (opponentOf s.currentPlayer)).2 = 0
        then (ClickResult.rejectedSuicide, s, [ToastMsg.invalidMove])
        else (ClickResult.accepted,
          commitClick s
            (captureScan (setCell s.board r c (some s.currentPlayer)) r c
              (opponentOf s.currentPlayer)).1
            (captureScan (setCell s.board r c (some s.currentPlayer)) r c
              (opponentOf s.currentPlayer)).2
            (opponentOf s.currentPlayer))) := by
  obtain ⟨row, hr, hc⟩ := readCell_eq_some_iff.mp hempty
  simp [handleCellClick, h, hr, hc]

theorem commitClick_not_full {s : GameState} {b2 : Board} {cap : Nat} {opp : Player}
    (hfull : (boardScan b2).1 = false) :
    commitClick s b2 cap opp =
      ({ s with
          board := b2
          blackScore := if s.currentPlayer = Player.black then s.blackScore + cap else s.blackScore
          whiteScore := if s.currentPlayer = Player.white then s.whiteScore + cap else s.whiteScore
          currentPlayer := opp },
        if 0 < cap then [ToastMsg.capture cap] else []) := by
  simp [commitClick, hfull]

/-! ## The board-full scan sees every in-bounds empty cell -/

theorem mem_allPts {p : Pos} : p ∈ allPts ↔ inB p.1 p.2 := by
  obtain ⟨x, y⟩ := p
  constructor
  · intro h
    unfold allPts at h
    rw [List.mem_flatMap] at h
    obtain ⟨r, hr, hmap⟩ := h
    rw [List.mem_map] at hmap
    obtain ⟨c, hc, heq⟩ := hmap
    rw [List.mem_range] at hr hc
    have h1 : (r : Int) = x := congrArg Prod.fst heq
    have h2 : (c : Int) = y := congrArg Prod.snd heq
    unfold BOARD_SIZE at hr hc
    unfold inB BOARD_SIZE
    omega
  · intro h
    obtain ⟨h0x, hx, h0y, hy⟩ := h
    unfold allPts
    rw [List.mem_flatMap]
    refine ⟨x.toNat, ?_, ?_⟩
    · rw [List.mem_range]
      unfold BOARD_SIZE
      unfold BOARD_SIZE at hx
      omega
    · rw [List.mem_map]
      refine ⟨y.toNat, ?_, ?_⟩
      · rw [List.mem_range]
        unfold BOARD_SIZE
        unfold BOARD_SIZE at hy
        omega
      · show ((x.toNat : Int), (y.toNat : Int)) = (x, y)
        rw [Int.toNat_of_nonneg h0x, Int.toNat_of_nonneg h0y]

theorem cellScan_false {acc : Bool × Nat × Nat} {cell : Option (Option Player)}
    (h : acc.1 = false) : (cellScan acc cell).1 = false := by
  unfold cellScan
  rcases cell with - | (- | p)
  · exact h
  · rfl
  · cases p <;> exact h

theorem foldl_cellScan_false (b : Board) (pts : List Pos) (acc : Bool × Nat × Nat)
    (h : acc.1 = false) :
    (pts.foldl (fun a p => cellScan a (readCell b p.1 p.2)) acc).1 = false := by
  induction pts generalizing acc with
  | nil => exact h
  | cons q pts ih =>
    rw [List.foldl_cons]
    exact ih _ (cellScan_false h)

theorem foldl_cellScan_null (b : Board) (pts : List Pos) (acc : Bool × Nat × Nat)
    {l : Pos} (hl : l ∈ pts) (hnull : readCell b l.1 l.2 = some none) :
    (pts.foldl (fun a p => cellScan a (readCell b p.1 p.2)) acc).1 = false := by
  induction pts generalizing acc with
  | nil => exact absurd hl (List.not_mem_nil _)
  | cons q pts ih =>
    rw [List.foldl_cons]
    rcases List.mem_cons.mp hl with rfl | hl'
    · apply foldl_cellScan_false
      rw [hnull]
      rfl
    · exact ih _ hl'

/-- Any in-bounds `null` cell falsifies the `isBoardFull` flag. -/
theorem boardScan_false_of_null {b : Board} {l : Pos} (hl : libCell b l) :
    (boardScan b).1 = false :=
  foldl_cellScan_null b allPts (true, 0, 0) (mem_allPts.mpr hl.1) hl.2

/-! ## Null cells survive the capture scan, and captures create them -/

/-- Every stone in a `getGroup` result is in bounds and has the color of
the start cell. -/
theorem getGroup_stones_props {b : Board} {r c : Int} {p : Pos}
    (hp : p ∈ (getGroup b r c).1) :
    inB p.1 p.2 ∧ optCell b p.1 p.2 = optCell b r c := by
  obtain ⟨player, hoc, hib⟩ := mem_stones_inv hp
  have spec := getGroup_spec hoc hib
  have hsp := reach_stoneP ⟨hib, hoc⟩ ((spec.1 p).mp hp)
  exact ⟨hsp.1, by rw [hsp.2, hoc]⟩

theorem removeStones_cons (opp : Player) (s : Pos) (rest : List Pos) (acc : Board × Nat) :
    removeStones opp (s :: rest) acc =
      removeStones opp rest
        (if optCell acc.1 s.1 s.2 = some opp then
          (setCell acc.1 s.1 s.2 none, acc.2 + 1) else acc) := by
  unfold removeStones
  rw [List.foldl_cons]

theorem removeStones_null_mono {opp : Player} {stones : List Pos} {acc : Board × Nat}
    {p : Pos} (h : readCell acc.1 p.1 p.2 = some none) :
    readCell (removeStones opp stones acc).1 p.1 p.2 = some none := by
  induction stones generalizing acc with
  | nil => exact h
  | cons s rest ih =>
    rw [removeStones_cons]
    by_cases hg : optCell acc.1 s.1 s.2 = some opp
    · rw [if_pos hg]
      have hnn := readCell_nonneg_left (optCell_eq_some_iff.mp hg)
      exact ih (readCell_setCell_none_mono hnn.1 hnn.2 h)
    · rw [if_neg hg]
      exact ih h

theorem removeStones_cap_mono (opp : Player) (stones : List Pos) (acc : Board × Nat) :
    acc.2 ≤ (removeStones opp stones acc).2 := by
  induction stones generalizing acc with
  | nil => exact le_refl _
  | cons s rest ih =>
    rw [removeStones_cons]
    by_cases hg : optCell acc.1 s.1 s.2 = some opp
    · rw [if_pos hg]
      exact le_trans (Nat.le_succ _) (ih (setCell acc.1 s.1 s.2 none, acc.2 + 1))
    · rw [if_neg hg]
      exact ih acc

theorem removeStones_null_of_progress {opp : Player} {stones : List Pos} {acc : Board × Nat}
    (hst : ∀ s ∈ stones, inB s.1 s.2)
    (hlt : acc.2 < (removeStones opp stones acc).2) :
    ∃ p : Pos, inB p.1 p.2 ∧ readCell (removeStones opp stones acc).1 p.1 p.2 = some none := by
  induction stones generalizing acc with
  | nil => exact absurd hlt (lt_irrefl _)
  | cons s rest ih =>
    rw [removeStones_cons] at hlt ⊢
    by_cases hg : optCell acc.1 s.1 s.2 = some opp
    · rw [if_pos hg] at hlt ⊢
      refine ⟨s, hst s (List.mem_cons_self _ _), ?_⟩
      exact removeStones_null_mono (readCell_setCell_self (optCell_eq_some_iff.mp hg))
    · rw [if_neg hg] at hlt ⊢
      exact ih (fun x hx => hst x (List.mem_cons_of_mem _ hx)) hlt

theorem captureStep_null_mono {opp : Player} {acc : Board × Nat} {n p : Pos}
    (h : readCell acc.1 p.1 p.2 = some none) :
    readCell (captureStep opp acc n).1 p.1 p.2 = some none := by
  unfold captureStep
  split
  · split
    · exact removeStones_null_mono h
    · exact h
  · exact h

theorem captureStep_cap_mono (opp : Player) (acc : Board × Nat) (n : Pos) :
    acc.2 ≤ (captureStep opp acc n).2 := by
  unfold captureStep
  split
  · split
    · exact removeStones_cap_mono ..
    · exact le_refl _
  · exact le_refl _

theorem captureStep_null_of_progress {opp : Player} {acc : Board × Nat} {n : Pos}
    (hlt : acc.2 < (captureStep opp acc n).2) :
    ∃ p : Pos, inB p.1 p.2 ∧ readCell (captureStep opp acc n).1 p.1 p.2 = some none := by
  unfold captureStep at hlt ⊢
  by_cases h1 : inB n.1 n.2 ∧ optCell acc.1 n.1 n.2 = some opp
  · rw [if_pos h1] at hlt ⊢
    by_cases h2 : (getGroup acc.1 n.1 n.2).2 = []
    · rw [if_pos h2] at hlt ⊢
      exact removeStones_null_of_progress
        (fun x hx => (getGroup_stones_props hx).1) hlt
    · rw [if_neg h2] at hlt
      exact absurd hlt (lt_irrefl _)
  · rw [if_neg h1] at hlt
    exact absurd hlt (lt_irrefl _)

theorem foldl_captureStep_null_mono {opp : Player} {ns : List Pos} {acc : Board × Nat}
    {p : Pos} (h : readCell acc.1 p.1 p.2 = some none) :
    readCell ((ns.foldl (captureStep opp) acc).1) p.1 p.2 = some none := by
  induction ns generalizing acc with
  | nil => exact h
  | cons n ns ih =>
    rw [List.foldl_cons]
    exact ih (captureStep_null_mono h)

theorem foldl_captureStep_null_of_progress {opp : Player} :
    ∀ (ns : List Pos) (acc : Board × Nat),
      acc.2 < (ns.foldl (captureStep opp) acc).2 →
      ∃ p : Pos, inB p.1 p.2 ∧ readCell ((ns.foldl (captureStep opp) acc).1) p.1 p.2 = some none := by
  intro ns
  induction ns with
  | nil =>
    intro acc hlt
    exact absurd hlt (lt_irrefl _)
  | cons n ns ih =>
    intro acc hlt
    rw [List.foldl_cons] at hlt ⊢
    by_cases hstep : acc.2 < (captureStep opp acc n).2
    · obtain ⟨p, hp1, hp2⟩ := captureStep_null_of_progress hstep
      exact ⟨p, hp1, foldl_captureStep_null_mono hp2⟩
    · have heq : (captureStep opp acc n).2 = acc.2 :=
        le_antisymm (not_lt.mp hstep) (captureStep_cap_mono opp acc n)
      exact ih _ (by omega)

/-- A positive capture count means the scanned board has an in-bounds
`null` cell (one that the scan itself just vacated). -/
theorem captureScan_null_of_cap_pos {b : Board} {r c : Int} {opp : Player}
    (hpos : 0 < (captureScan b r c opp).2) :
    ∃ p : Pos, inB p.1 p.2 ∧ readCell (captureScan b r c opp).1 p.1 p.2 = some none :=
  foldl_captureStep_null_of_progress (neighborsOf (r, c)) (b, 0) hpos

/-- An accepted placement never produces a full board: either the mover
kept a liberty (an empty cell) or the capture scan vacated one. -/
theorem accepted_not_full {s : GameState} {r c : Int}
    (h : s.gameOver = false) (hempty : readCell s.board r c = some none)
    (hacc : (handleCellClick s r c).1 = ClickResult.accepted) :
    (boardScan (captureScan (setCell s.board r c (some s.currentPlayer)) r c
      (opponentOf s.currentPlayer)).1).1 = false := by
  have heq := handleCellClick_empty_eq h hempty
  by_cases hcond : (getGroup (captureScan (setCell s.board r c (some s.currentPlayer)) r c
        (opponentOf s.currentPlayer)).1 r c).2 = []
      ∧ (captureScan (setCell s.board r c (some s.currentPlayer)) r c
        (opponentOf s.currentPlayer)).2 = 0
  · rw [heq, if_pos hcond] at hacc
    exact absurd hacc (by simp)
  · rcases Decidable.not_and_iff_or_not.mp hcond with hlibs | hcap
    · obtain ⟨l, hl⟩ := List.exists_mem_of_ne_nil _ hlibs
      exact boardScan_false_of_null (getGroup_libs_empty l hl)
    · obtain ⟨p, hp1, hp2⟩ := captureScan_null_of_cap_pos (Nat.pos_of_ne_zero hcap)
      exact boardScan_false_of_null ⟨hp1, hp2⟩

/-! ## Inversion: what an accepted click implies about the input -/

theorem accepted_inversion {s : GameState} {r c : Int}
    (hacc : (handleCellClick s r c).1 = ClickResult.accepted) :
    s.gameOver = false ∧ readCell s.board r c = some none := by
  by_cases hgo : s.gameOver = true
  · rw [handleCellClick_gameOver hgo] at hacc
    exact absurd hacc (by simp)
  · have hgo' : s.gameOver = false := by
      rwa [Bool.not_eq_true] at hgo
    cases hjr : jsIndex s.board r with
    | none =>
      rw [handleCellClick_rowErr hgo' hjr] at hacc
      exact absurd hacc (by simp)
    | some row =>
      cases hjc : jsIndex row c with
      | none =>
        rw [handleCellClick_colErr hgo' hjr hjc] at hacc
        exact absurd hacc (by simp)
      | some cell =>
        cases cell with
        | some p =>
          rw [handleCellClick_occupied hgo' hjr hjc] at hacc
          exact absurd hacc (by simp)
        | none =>
          exact ⟨hgo', readCell_eq_some_iff.mpr ⟨row, hjr, hjc⟩⟩

/-! ## Claim theorems -/

/-- C1: with the game in progress and the target cell empty, a placement
whose capture scan removes at least one opponent stone is accepted (even if
the mover's own group had zero liberties before the captures), and the
placement is rejected as suicide exactly when the mover's post-capture
group has zero liberties AND the scan captured zero stones: captures are
resolved before the suicide check. -/
theorem C1_captures_before_suicide (s : GameState) (r c : Int)
    (hgo : s.gameOver = false) (hempty : readCell s.board r c = some none) :
    (0 < (captureScan (setCell s.board r c (some s.currentPlayer)) r c
        (opponentOf s.currentPlayer)).2 →
      (handleCellClick s r c).1 = ClickResult.accepted) ∧
    ((handleCellClick s r c).1 = ClickResult.rejectedSuicide ↔
      ((getGroup (captureScan (setCell s.board r c (some s.currentPlayer)) r c
          (opponentOf s.currentPlayer)).1 r c).2 = []
        ∧ (captureScan (setCell s.board r c (some s.currentPlayer)) r c
          (opponentOf s.currentPlayer)).2 = 0)) := by
  rw [handleCellClick_empty_eq hgo hempty]
  by_cases hcond : (getGroup (captureScan (setCell s.board r c (some s.currentPlayer)) r c
        (opponentOf s.currentPlayer)).1 r c).2 = []
      ∧ (captureScan (setCell s.board r c (some s.currentPlayer)) r c
        (opponentOf s.currentPlayer)).2 = 0
  · rw [if_pos hcond]
    constructor
    · intro hpos
      rw [hcond.2] at hpos
      exact absurd hpos (lt_irrefl 0)
    · exact ⟨fun _ => hcond, fun _ => rfl⟩
  · rw [if_neg hcond]
    constructor
    · intro _
      rfl
    · constructor
      · intro h
        exact absurd h (by simp)
      · intro h
        exact absurd h hcond

/-- C1 witness: the snapback board. Black placing at (0,0) has zero
liberties before the captures, yet the move captures two white stones and
is accepted. -/
theorem C1_witness :
    (getGroup (setCell sSnapback.board 0 0 (some Player.black)) 0 0).2 = [] ∧
    0 < (captureScan (setCell sSnapback.board 0 0 (some sSnapback.currentPlayer)) 0 0
      (opponentOf sSnapback.currentPlayer)).2 ∧
    (handleCellClick sSnapback 0 0).1 = ClickResult.accepted := by
  refine ⟨by decide, by decide, ?_⟩
  exact (C1_captures_before_suicide sSnapback 0 0 rfl (by decide)).1 (by decide)

/-- C2: with the game in progress and the target cell empty, if the scan
captures nothing and the mover's post-capture group has no liberties, the
click is rejected with the suicide toast and the state is returned
unchanged (board, tallies, turn and terminal status intact). -/
theorem C2_suicide_rejected (s : GameState) (r c : Int)
    (hgo : s.gameOver = false) (hempty : readCell s.board r c = some none)
    (hcap : (captureScan (setCell s.board r c (some s.currentPlayer)) r c
      (opponentOf s.currentPlayer)).2 = 0)
    (hlibs : (getGroup (captureScan (setCell s.board r c (some s.currentPlayer)) r c
      (opponentOf s.currentPlayer)).1 r c).2 = []) :
    handleCellClick s r c = (ClickResult.rejectedSuicide, s, [ToastMsg.invalidMove]) := by
  rw [handleCellClick_empty_eq hgo hempty, if_pos ⟨hlibs, hcap⟩]

/-- C2 witness: Black playing inside the white diamond around (5,5)
(end-to-end scenario 3) is rejected as suicide with the state unchanged. -/
theorem C2_witness :
    handleCellClick sSuicide 5 5 = (ClickResult.rejectedSuicide, sSuicide, [ToastMsg.invalidMove]) :=
  C2_suicide_rejected sSuicide 5 5 rfl (by decide) (by decide) (by decide)

/-- C3 counterexample: clicking row 19 (out of bounds) on a fresh session
does NOT return a rejection value: `board[19]` is `undefined` and
`board[19][0]` throws a `TypeError` (modelled by `ClickResult.typeError`),
refuting the claim that out-of-bounds coordinates yield an `OutOfBounds`
rejection value without raising. No `OutOfBounds` reason exists anywhere
in the code. -/
theorem C3_counterexample :
    handleCellClick initialState 19 0 = (ClickResult.typeError, initialState, []) := by
  rfl

/-- C3 (amended): on a well-formed board with the game in progress, a click
with the row out of [0, 19) throws a `TypeError` (no rejection value),
while a click with the row in range but the column out of [0, 19) is
silently ignored (`undefined !== null` takes the occupied-cell early
return); in both cases the state is unchanged and no reason is surfaced. -/
theorem C3_bounds_behavior (s : GameState) (r c : Int)
    (hgo : s.gameOver = false) (hp : proper s.board) :
    (¬ (0 ≤ r ∧ r < (BOARD_SIZE : Int)) →
      handleCellClick s r c = (ClickResult.typeError, s, [])) ∧
    ((0 ≤ r ∧ r < (BOARD_SIZE : Int)) → ¬ (0 ≤ c ∧ c < (BOARD_SIZE : Int)) →
      handleCellClick s r c = (ClickResult.ignored, s, [])) := by
  constructor
  · intro hr
    apply handleCellClick_rowErr hgo
    unfold jsIndex
    rw [dif_neg]
    rintro ⟨h0, hlt⟩
    rw [hp.1] at hlt
    unfold BOARD_SIZE at hlt
    unfold BOARD_SIZE at hr
    omega
  · intro hr hc
    have hlt : r.toNat < s.board.length := by
      rw [hp.1]
      unfold BOARD_SIZE
      unfold BOARD_SIZE at hr
      omega
    have hjr : jsIndex s.board r = some (s.board.get ⟨r.toNat, hlt⟩) := by
      unfold jsIndex
      rw [dif_pos ⟨hr.1, hlt⟩]
    apply handleCellClick_colErr hgo hjr
    unfold jsIndex
    rw [dif_neg]
    rintro ⟨h0, hclt⟩
    rw [hp.2 _ (List.get_mem s.board r.toNat hlt)] at hclt
    unfold BOARD_SIZE at hclt
    unfold BOARD_SIZE at hc
    omega

/-- C3 witness: a negative row throws, an out-of-range column on an
in-range row is silently ignored. -/
theorem C3_witness :
    handleCellClick initialState (-1) 5 = (ClickResult.typeError, initialState, []) ∧
    handleCellClick initialState 5 19 = (ClickResult.ignored, initialState, []) :=
  ⟨(C3_bounds_behavior initialState (-1) 5 rfl (by decide)).1 (by decide),
   (C3_bounds_behavior initialState 5 19 rfl (by decide)).2 (by decide) (by decide)⟩

/-- C4 counterexample: clicking the occupied cell (0,0) is silently
ignored — the handler early-returns with no toast and no distinct outcome,
so no `OccupiedCell` reason is surfaced to the caller (the empty toast
list refutes "surfaced to the caller"; the outcome is the same `ignored`
as a game-over click). -/
theorem C4_counterexample :
    handleCellClick sPair 0 0 = (ClickResult.ignored, sPair, []) := by
  rfl

/-- C4 (amended): a placement on an occupied in-bounds cell is always
silently rejected — an early return with no toast and no surfaced reason —
and the board, turn, capture tallies and terminal status are unchanged. -/
theorem C4_occupied_silent (s : GameState) (r c : Int) (p : Player)
    (hgo : s.gameOver = false) (hocc : readCell s.board r c = some (some p)) :
    handleCellClick s r c = (ClickResult.ignored, s, []) := by
  obtain ⟨row, hjr, hjc⟩ := readCell_eq_some_iff.mp hocc
  exact handleCellClick_occupied hgo hjr hjc

/-- C4 witness: clicking the other occupied cell (0,1). -/
theorem C4_witness :
    handleCellClick sPair 0 1 = (ClickResult.ignored, sPair, []) :=
  C4_occupied_silent sPair 0 1 Player.black rfl (by decide)

/-- C5: `getGroup` restarted from any stone of a returned group yields the
identical stones and liberties sets; on an occupied in-bounds start, the
stones set is exactly the maximal 4-connected same-color component of the
start (membership coincides with reachability through same-color stones);
and every returned liberty is an in-bounds empty intersection. -/
theorem C5_group_component (b : Board) (r c : Int) :
    (∀ p ∈ (getGroup b r c).1,
      (getGroup b p.1 p.2).1.toFinset = (getGroup b r c).1.toFinset ∧
      (getGroup b p.1 p.2).2.toFinset = (getGroup b r c).2.toFinset) ∧
    (∀ player : Player, inB r c → optCell b r c = some player →
      ∀ p, p ∈ (getGroup b r c).1 ↔ Reach b player (r, c) p) ∧
    (∀ l ∈ (getGroup b r c).2, inB l.1 l.2 ∧ readCell b l.1 l.2 = some none) := by
  refine ⟨?_, ?_, ?_⟩
  · intro p hp
    obtain ⟨h1, h2⟩ := getGroup_idem hp
    exact ⟨toFinset_eq_of_mem_iff h1, toFinset_eq_of_mem_iff h2⟩
  · intro player hib hoc p
    exact (getGroup_spec hoc hib).1 p
  · intro l hl
    exact getGroup_libs_empty l hl

/-- C5 witness: the two-stone black group at (0,0)–(0,1): restarting from
(0,1) yields the same sets, (0,1) is reachable from (0,0), and the
liberty (1,0) is an empty cell. -/
theorem C5_witness :
    (getGroup bPair (0 : Int) (1 : Int)).1.toFinset = (getGroup bPair 0 0).1.toFinset ∧
    (getGroup bPair (0 : Int) (1 : Int)).2.toFinset = (getGroup bPair 0 0).2.toFinset ∧
    Reach bPair Player.black (0, 0) (0, 1) ∧
    (inB 1 0 ∧ readCell bPair 1 0 = some none) := by
  have h := C5_group_component bPair 0 0
  have hm : ((0 : Int), (1 : Int)) ∈ (getGroup bPair 0 0).1 := by decide
  have hl : ((1 : Int), (0 : Int)) ∈ (getGroup bPair 0 0).2 := by decide
  exact ⟨(h.1 _ hm).1, (h.1 _ hm).2,
    (h.2.1 Player.black (by decide) (by decide) (0, 1)).mp hm, h.2.2 _ hl⟩

/-- C6: after an accepted placement (on a well-formed board), if the
resulting board is full the session is Finished with the winner decided by
capture tally plus stone count (strict comparison, equality giving no
winner); if it is not full, the session stays in progress and the turn
flips to the opponent. (The full branch is in fact unreachable: an
accepted move always leaves an empty cell — `accepted_not_full`.) -/
theorem C6_terminal_evaluation (s : GameState) (r c : Int)
    (hp : proper s.board)
    (hacc : (handleCellClick s r c).1 = ClickResult.accepted) :
    ((boardScan (handleCellClick s r c).2.1.board).1 = true →
      (handleCellClick s r c).2.1.gameOver = true ∧
      (handleCellClick s r c).2.1.winner =
        (if (handleCellClick s r c).2.1.whiteScore +
              (boardScan (handleCellClick s r c).2.1.board).2.2 <
            (handleCellClick s r c).2.1.blackScore +
              (boardScan (handleCellClick s r c).2.1.board).2.1
          then some Player.black
          else if (handleCellClick s r c).2.1.blackScore +
              (boardScan (handleCellClick s r c).2.1.board).2.1 <
            (handleCellClick s r c).2.1.whiteScore +
              (boardScan (handleCellClick s r c).2.1.board).2.2
          then some Player.white
          else none)) ∧
    ((boardScan (handleCellClick s r c).2.1.board).1 = false →
      (handleCellClick s r c).2.1.gameOver = false ∧
      (handleCellClick s r c).2.1.currentPlayer = opponentOf s.currentPlayer ∧
      (handleCellClick s r c).2.1.winner = s.winner) := by
  obtain ⟨hgo, hempty⟩ := accepted_inversion hacc
  have hnotfull := accepted_not_full hgo hempty hacc
  have heq := handleCellClick_empty_eq hgo hempty
  have hcond : ¬ ((getGroup (captureScan (setCell s.board r c (some s.currentPlayer)) r c
        (opponentOf s.currentPlayer)).1 r c).2 = []
      ∧ (captureScan (setCell s.board r c (some s.currentPlayer)) r c
        (opponentOf s.currentPlayer)).2 = 0) := by
    intro hcond
    rw [heq, if_pos hcond] at hacc
    exact absurd hacc (by simp)
  have hclick : handleCellClick s r c =
      (ClickResult.accepted, commitClick s
        (captureScan (setCell s.board r c (some s.currentPlayer)) r c
          (opponentOf s.currentPlayer)).1
        (captureScan (setCell s.board r c (some s.currentPlayer)) r c
          (opponentOf s.currentPlayer)).2
        (opponentOf s.currentPlayer)) := by
    rw [heq, if_neg hcond]
  have hstate := @commitClick_not_full s
    (captureScan (setCell s.board r c (some s.currentPlayer)) r c
      (opponentOf s.currentPlayer)).1
    (captureScan (setCell s.board r c (some s.currentPlayer)) r c
      (opponentOf s.currentPlayer)).2
    (opponentOf s.currentPlayer) hnotfull
  have hb : (handleCellClick s r c).2.1.board =
      (captureScan (setCell s.board r c (some s.currentPlayer)) r c
        (opponentOf s.currentPlayer)).1 := by
    rw [hclick, hstate]
  have hgo2 : (handleCellClick s r c).2.1.gameOver = false := by
    rw [hclick, hstate]
    exact hgo
  have hcp : (handleCellClick s r c).2.1.currentPlayer = opponentOf s.currentPlayer := by
    rw [hclick, hstate]
  have hw : (handleCellClick s r c).2.1.winner = s.winner := by
    rw [hclick, hstate]
  constructor
  · intro hfull
    rw [hb] at hfull
    rw [hnotfull] at hfull
    exact absurd hfull (by simp)
  · intro _
    exact ⟨hgo2, hcp, hw⟩

set_option maxRecDepth 16000 in
/-- C6 witness: Black's first move at (0,0) is accepted, the board is not
full, the game stays in progress and the turn flips to White. -/
theorem C6_witness :
    (handleCellClick initialState 0 0).2.1.gameOver = false ∧
    (handleCellClick initialState 0 0).2.1.currentPlayer = Player.white ∧
    (handleCellClick initialState 0 0).2.1.winner = none := by
  have h := (C6_terminal_evaluation initialState 0 0 (by decide) (by decide)).2 (by decide)
  exact ⟨h.1, h.2.1, h.2.2⟩

/-- C8: for an in-progress session, `handlePass` flips the turn (emitting
only the pass toast), and any number of consecutive passes keeps the game
in progress with the board, both capture tallies and the winner
unchanged — pass never ends the game. -/
theorem C8_pass_never_ends (s : GameState) (h : s.gameOver = false) (n : Nat) :
    handlePass s = ({ s with currentPlayer := opponentOf s.currentPlayer },
      [ToastMsg.passed s.currentPlayer]) ∧
    (passIter n s).gameOver = false ∧
    (passIter n s).board = s.board ∧
    (passIter n s).blackScore = s.blackScore ∧
    (passIter n s).whiteScore = s.whiteScore ∧
    (passIter n s).winner = s.winner := by
  have aux : ∀ (m : Nat) (t : GameState), t.gameOver = false →
      (passIter m t).gameOver = false ∧ (passIter m t).board = t.board ∧
      (passIter m t).blackScore = t.blackScore ∧
      (passIter m t).whiteScore = t.whiteScore ∧
      (passIter m t).winner = t.winner := by
    intro m
    induction m with
    | zero => exact fun t ht => ⟨ht, rfl, rfl, rfl, rfl⟩
    | succ m ih =>
      intro t ht
      have hp1 : (handlePass t).1 = { t with currentPlayer := opponentOf t.currentPlayer } := by
        simp [handlePass, ht]
      have hstep : passIter (m + 1) t = passIter m (handlePass t).1 := rfl
      rw [hstep, hp1]
      exact ih _ ht
  refine ⟨by simp [handlePass, h], aux n s h⟩

/-- C8 witness: two consecutive passes from the initial session leave the
game in progress with the empty board, zero tallies and no winner. -/
theorem C8_witness :
    (passIter 2 initialState).gameOver = false ∧
    (passIter 2 initialState).board = initialState.board ∧
    (passIter 2 initialState).winner = none := by
  have h := C8_pass_never_ends initialState rfl 2
  exact ⟨h.2.1, h.2.2.1, h.2.2.2.2.2⟩

/-- C10: `getGroup` returns empty stones and empty liberties both when the
start cell holds no stone (empty or `undefined`) and when the start
coordinates are outside the board bounds; the embedding is a total
function (the source reads the start via optional chaining and
bounds-checks all other reads, so no read throws). -/
theorem C10_getGroup_total (b : Board) (r c : Int)
    (h : optCell b r c = none ∨ ¬ inB r c) :
    getGroup b r c = ([], []) := by
  rcases h with h | h
  · exact getGroup_of_optCell_none h
  · exact getGroup_of_not_inB h

/-- C10 witness: out-of-bounds start on the empty board, and an empty
start cell on an occupied board. -/
theorem C10_witness :
    getGroup createEmptyBoard 25 3 = ([], []) ∧ getGroup bPair 5 5 = ([], []) :=
  ⟨C10_getGroup_total createEmptyBoard 25 3 (Or.inr (by decide)),
   C10_getGroup_total bPair 5 5 (Or.inl (by decide))⟩

/-! ## Capture-tally accounting (claim C7) -/

theorem commitClick_scores (s : GameState) (b2 : Board) (cap : Nat) (opp : Player) :
    (commitClick s b2 cap opp).1.blackScore =
      (if s.currentPlayer = Player.black then s.blackScore + cap else s.blackScore) ∧
    (commitClick s b2 cap opp).1.whiteScore =
      (if s.currentPlayer = Player.white then s.whiteScore + cap else s.whiteScore) := by
  by_cases hf : (boardScan b2).1
  · constructor <;> (simp only [commitClick, hf, if_true]; split <;> rfl)
  · have hf2 : (boardScan b2).1 = false := by rwa [Bool.not_eq_true] at hf
    constructor <;> simp [commitClick, hf2]

theorem handleCellClick_state_of_not_accepted {s : GameState} {r c : Int}
    (h : (handleCellClick s r c).1 ≠ ClickResult.accepted) :
    (handleCellClick s r c).2.1 = s := by
  by_cases hgo : s.gameOver = true
  · rw [handleCellClick_gameOver hgo]
  · have hgo2 : s.gameOver = false := by rwa [Bool.not_eq_true] at hgo
    cases hjr : jsIndex s.board r with
    | none => rw [handleCellClick_rowErr hgo2 hjr]
    | some row =>
      cases hjc : jsIndex row c with
      | none => rw [handleCellClick_colErr hgo2 hjr hjc]
      | some cell =>
        cases cell with
        | some p => rw [handleCellClick_occupied hgo2 hjr hjc]
        | none =>
          have hempty : readCell s.board r c = some none :=
            readCell_eq_some_iff.mpr ⟨row, hjr, hjc⟩
          have heq := handleCellClick_empty_eq hgo2 hempty
          by_cases hcond : (getGroup (captureScan (setCell s.board r c
                (some s.currentPlayer)) r c (opponentOf s.currentPlayer)).1 r c).2 = []
              ∧ (captureScan (setCell s.board r c (some s.currentPlayer)) r c
                (opponentOf s.currentPlayer)).2 = 0
          · rw [heq, if_pos hcond]
          · exfalso
            apply h
            rw [heq, if_neg hcond]

theorem handleCellClick_scores_of_accepted {s : GameState} {r c : Int}
    (hacc : (handleCellClick s r c).1 = ClickResult.accepted) :
    (handleCellClick s r c).2.1.blackScore =
      (if s.currentPlayer = Player.black then s.blackScore + clickCaptures s r c
        else s.blackScore) ∧
    (handleCellClick s r c).2.1.whiteScore =
      (if s.currentPlayer = Player.white then s.whiteScore + clickCaptures s r c
        else s.whiteScore) := by
  obtain ⟨hgo, hempty⟩ := accepted_inversion hacc
  have heq := handleCellClick_empty_eq hgo hempty
  have hcond : ¬ ((getGroup (captureScan (setCell s.board r c (some s.currentPlayer)) r c
        (opponentOf s.currentPlayer)).1 r c).2 = []
      ∧ (captureScan (setCell s.board r c (some s.currentPlayer)) r c
        (opponentOf s.currentPlayer)).2 = 0) := by
    intro hcond
    rw [heq, if_pos hcond] at hacc
    exact absurd hacc (by simp)
  have hclick : handleCellClick s r c =
      (ClickResult.accepted, commitClick s
        (captureScan (setCell s.board r c (some s.currentPlayer)) r c
          (opponentOf s.currentPlayer)).1
        (captureScan (setCell s.board r c (some s.currentPlayer)) r c
          (opponentOf s.currentPlayer)).2
        (opponentOf s.currentPlayer)) := by
    rw [heq, if_neg hcond]
  rw [hclick]
  exact commitClick_scores s _ _ _

theorem applyOp_scores (s : GameState) (op : Op) (hop : op ≠ Op.reset) :
    (applyOp s op).blackScore = s.blackScore + gainOf Player.black s op ∧
    (applyOp s op).whiteScore = s.whiteScore + gainOf Player.white s op := by
  cases op with
  | click r c =>
    show (handleCellClick s r c).2.1.blackScore = _ ∧ (handleCellClick s r c).2.1.whiteScore = _
    by_cases hacc : (handleCellClick s r c).1 = ClickResult.accepted
    · obtain ⟨hb, hw⟩ := handleCellClick_scores_of_accepted hacc
      rw [hb, hw]
      constructor
      · simp only [gainOf, hacc]
        cases hcp : s.currentPlayer <;> simp [hcp]
      · simp only [gainOf, hacc]
        cases hcp : s.currentPlayer <;> simp [hcp]
    · rw [handleCellClick_state_of_not_accepted hacc]
      constructor
      · simp [gainOf, hacc]
      · simp [gainOf, hacc]
  | pass =>
    have hb : (handlePass s).1.blackScore = s.blackScore := by
      unfold handlePass
      split <;> rfl
    have hw : (handlePass s).1.whiteScore = s.whiteScore := by
      unfold handlePass
      split <;> rfl
    constructor
    · show (handlePass s).1.blackScore = _
      rw [hb]
      simp [gainOf]
    · show (handlePass s).1.whiteScore = _
      rw [hw]
      simp [gainOf]
  | resign =>
    have hb : (handleResign s).1.blackScore = s.blackScore := by
      unfold handleResign
      split <;> rfl
    have hw : (handleResign s).1.whiteScore = s.whiteScore := by
      unfold handleResign
      split <;> rfl
    constructor
    · show (handleResign s).1.blackScore = _
      rw [hb]
      simp [gainOf]
    · show (handleResign s).1.whiteScore = _
      rw [hw]
      simp [gainOf]
  | reset => exact absurd rfl hop

theorem runOps_scores (s : GameState) (ops : List Op) (h : ∀ op ∈ ops, op ≠ Op.reset) :
    (runOps s ops).blackScore = s.blackScore + totalGain Player.black s ops ∧
    (runOps s ops).whiteScore = s.whiteScore + totalGain Player.white s ops := by
  induction ops generalizing s with
  | nil => exact ⟨rfl, rfl⟩
  | cons op rest ih =>
    have hop := h op (List.mem_cons_self _ _)
    obtain ⟨hb, hw⟩ := applyOp_scores s op hop
    obtain ⟨ihb, ihw⟩ := ih (applyOp s op) (fun x hx => h x (List.mem_cons_of_mem _ hx))
    constructor
    · show (runOps (applyOp s op) rest).blackScore = s.blackScore + totalGain Player.black s (op :: rest)
      rw [ihb, hb]
      show s.blackScore + gainOf Player.black s op + totalGain Player.black (applyOp s op) rest =
        s.blackScore + (gainOf Player.black s op + totalGain Player.black (applyOp s op) rest)
      omega
    · show (runOps (applyOp s op) rest).whiteScore = s.whiteScore + totalGain Player.white s (op :: rest)
      rw [ihw, hw]
      show s.whiteScore + gainOf Player.white s op + totalGain Player.white (applyOp s op) rest =
        s.whiteScore + (gainOf Player.white s op + totalGain Player.white (applyOp s op) rest)
      omega

/-! ## Per-move capture decomposition: each capture is a whole opponent
group, removed and counted once -/

theorem getGroup_start_mem {b : Board} {r c : Int} {player : Player}
    (hoc : optCell b r c = some player) (hib : inB r c) :
    (r, c) ∈ (getGroup b r c).1 :=
  ((getGroup_spec hoc hib).1 _).mpr Relation.ReflTransGen.refl

theorem removeStones_char {opp : Player} {stones : List Pos} {acc : Board × Nat}
    (hnd : stones.Nodup)
    (hopp : ∀ x ∈ stones, optCell acc.1 x.1 x.2 = some opp) :
    (removeStones opp stones acc).2 = acc.2 + stones.length ∧
    (∀ x : Pos, readCell (removeStones opp stones acc).1 x.1 x.2 =
      if x ∈ stones then some none else readCell acc.1 x.1 x.2) := by
  induction stones generalizing acc with
  | nil =>
    refine ⟨rfl, fun x => ?_⟩
    rw [if_neg (List.not_mem_nil x)]
    rfl
  | cons s rest ih =>
    have hs := hopp s (List.mem_cons_self _ _)
    have hsr := optCell_eq_some_iff.mp hs
    have hnn := readCell_nonneg_left hsr
    rw [removeStones_cons, if_pos hs]
    have hrest : ∀ x ∈ rest, optCell (setCell acc.1 s.1 s.2 none) x.1 x.2 = some opp := by
      intro x hx
      have hxs : x ≠ s := fun hh => (List.nodup_cons.mp hnd).1 (hh ▸ hx)
      unfold optCell
      rw [readCell_setCell_ne hnn.1 hnn.2 hxs]
      exact hopp x (List.mem_cons_of_mem _ hx)
    obtain ⟨hc, hr⟩ := @ih (setCell acc.1 s.1 s.2 none, acc.2 + 1)
      (List.nodup_cons.mp hnd).2 hrest
    constructor
    · rw [hc, List.length_cons]
      omega
    · intro x
      rw [hr x]
      by_cases hx : x ∈ rest
      · rw [if_pos hx, if_pos (List.mem_cons_of_mem _ hx)]
      · rw [if_neg hx]
        by_cases hxs : x = s
        · subst hxs
          rw [if_pos (List.mem_cons_self _ _)]
          exact readCell_setCell_self hsr
        · rw [if_neg (fun hh => (List.mem_cons.mp hh).elim hxs hx)]
          exact readCell_setCell_ne hnn.1 hnn.2 hxs

theorem opponentErased_opp {opp : Player} {b b2 : Board} (h : opponentErased opp b b2)
    {x : Pos} (hx : optCell b2 x.1 x.2 = some opp) : optCell b x.1 x.2 = some opp := by
  rcases h x.1 x.2 with heq | ⟨hb, hnull⟩
  · unfold optCell at hx ⊢
    rw [← heq]
    exact hx
  · rw [optCell_eq_some_iff.mp hx] at hnull
    exact absurd hnull (by simp)

/-- Full decomposition of a capture-scan fold suffix: the count it adds is
the total size of a list of pairwise-disjoint captured groups, each a
nonempty duplicate-free zero-liberty opponent group rooted at a scanned
neighbor, fully erased by the end of the scan. -/
theorem captureFold_decomposition (opp : Player) (b : Board) :
    ∀ (ns : List Pos) (acc : Board × Nat),
      opponentErased opp b acc.1 →
      ∃ Gs : List (List Pos),
        (ns.foldl (captureStep opp) acc).2 = acc.2 + (Gs.map List.length).sum ∧
        opponentErased opp b (ns.foldl (captureStep opp) acc).1 ∧
        Gs.Pairwise (fun g1 g2 => ∀ x ∈ g1, x ∉ g2) ∧
        ∀ G ∈ Gs, G ≠ [] ∧ G.Nodup ∧
          (∀ x ∈ G, optCell b x.1 x.2 = some opp) ∧
          (∀ x ∈ G, readCell acc.1 x.1 x.2 ≠ some none) ∧
          (∀ x ∈ G, readCell ((ns.foldl (captureStep opp) acc).1) x.1 x.2 = some none) ∧
          ∃ n ∈ ns, ∃ bi : Board,
            (getGroup bi n.1 n.2).1 = G ∧ (getGroup bi n.1 n.2).2 = [] := by
  intro ns
  induction ns with
  | nil =>
    intro acc herased
    exact ⟨[], by simp, herased, List.Pairwise.nil, fun G hG => absurd hG (List.not_mem_nil _)⟩
  | cons n ns ih =>
    intro acc herased
    rw [List.foldl_cons]
    by_cases hg : inB n.1 n.2 ∧ optCell acc.1 n.1 n.2 = some opp
    · by_cases hlibs : (getGroup acc.1 n.1 n.2).2 = []
      · -- a group is captured here
        have hstep : captureStep opp acc n = removeStones opp (getGroup acc.1 n.1 n.2).1 acc := by
          unfold captureStep
          rw [if_pos hg, if_pos hlibs]
        obtain ⟨hspec1, -, hspec3, -⟩ := getGroup_spec hg.2 hg.1
        have hGopp : ∀ x ∈ (getGroup acc.1 n.1 n.2).1, optCell acc.1 x.1 x.2 = some opp := by
          intro x hx
          rw [(getGroup_stones_props hx).2]
          exact hg.2
        obtain ⟨hcnt, hcells⟩ := removeStones_char hspec3 hGopp
        rw [hstep]
        set acc2 := removeStones opp (getGroup acc.1 n.1 n.2).1 acc with hacc2
        have herased2 : opponentErased opp b acc2.1 := by
          intro r0 c0
          rw [show readCell acc2.1 r0 c0 = readCell acc2.1 ((r0, c0) : Pos).1 ((r0, c0) : Pos).2 from rfl,
            hcells (r0, c0)]
          by_cases hmem : ((r0, c0) : Pos) ∈ (getGroup acc.1 n.1 n.2).1
          · rw [if_pos hmem]
            exact Or.inr ⟨opponentErased_opp herased (hGopp _ hmem), rfl⟩
          · rw [if_neg hmem]
            exact herased r0 c0
        obtain ⟨Gs, ih1, ih2, ih3, ih4⟩ := ih acc2 herased2
        refine ⟨(getGroup acc.1 n.1 n.2).1 :: Gs, ?_, ih2, ?_, ?_⟩
        · rw [ih1, hcnt, List.map_cons, List.sum_cons]
          omega
        · refine List.Pairwise.cons ?_ ih3
          intro G hG x hxG0 hxG
          have hne := (ih4 G hG).2.2.2.1 x hxG
          apply hne
          rw [show readCell acc2.1 x.1 x.2 =
            readCell acc2.1 ((x.1, x.2) : Pos).1 ((x.1, x.2) : Pos).2 from rfl, hcells]
          rw [if_pos hxG0]
        · intro G hG
          rcases List.mem_cons.mp hG with heqG | hG2
          · subst heqG
            refine ⟨?_, hspec3, ?_, ?_, ?_, n, List.mem_cons_self _ _, acc.1, rfl, hlibs⟩
            · intro hnil
              exact absurd (hnil ▸ getGroup_start_mem hg.2 hg.1) (List.not_mem_nil _)
            · intro x hx
              exact opponentErased_opp herased (hGopp x hx)
            · intro x hx
              rw [optCell_eq_some_iff.mp (hGopp x hx)]
              simp
            · intro x hx
              apply foldl_captureStep_null_mono
              rw [hcells x, if_pos hx]
          · obtain ⟨hGne, hGnd, hGopp2, hGnotnull, hGnull, nG, hnG, biG, hbiG⟩ := ih4 G hG2
            refine ⟨hGne, hGnd, hGopp2, ?_, hGnull, nG, List.mem_cons_of_mem _ hnG, biG, hbiG⟩
            intro x hx hnull
            apply hGnotnull x hx
            rw [hcells x]
            by_cases hmem : x ∈ (getGroup acc.1 n.1 n.2).1
            · rw [if_pos hmem]
            · rw [if_neg hmem]
              exact hnull
      · -- neighbor group still has liberties: nothing happens
        have hstep : captureStep opp acc n = acc := by
          unfold captureStep
          rw [if_pos hg, if_neg hlibs]
        rw [hstep]
        obtain ⟨Gs, ih1, ih2, ih3, ih4⟩ := ih acc herased
        exact ⟨Gs, ih1, ih2, ih3, fun G hG =>
          let h := ih4 G hG
          ⟨h.1, h.2.1, h.2.2.1, h.2.2.2.1, h.2.2.2.2.1,
            let ⟨nG, hnG, rest⟩ := h.2.2.2.2.2
            ⟨nG, List.mem_cons_of_mem _ hnG, rest⟩⟩⟩
    · -- neighbor not an in-bounds opponent stone: nothing happens
      have hstep : captureStep opp acc n = acc := by
        unfold captureStep
        rw [if_neg hg]
      rw [hstep]
      obtain ⟨Gs, ih1, ih2, ih3, ih4⟩ := ih acc herased
      exact ⟨Gs, ih1, ih2, ih3, fun G hG =>
        let h := ih4 G hG
        ⟨h.1, h.2.1, h.2.2.1, h.2.2.2.1, h.2.2.2.2.1,
          let ⟨nG, hnG, rest⟩ := h.2.2.2.2.2
          ⟨nG, List.mem_cons_of_mem _ hnG, rest⟩⟩⟩

theorem opponentErased_refl (opp : Player) (b : Board) : opponentErased opp b b :=
  fun _ _ => Or.inl rfl

/-- The capture scan's count decomposes into pairwise-disjoint whole
captured groups. -/
theorem captureScan_decomposition (b : Board) (r c : Int) (opp : Player) :
    ∃ Gs : List (List Pos),
      (captureScan b r c opp).2 = (Gs.map List.length).sum ∧
      Gs.Pairwise (fun g1 g2 => ∀ x ∈ g1, x ∉ g2) ∧
      ∀ G ∈ Gs, G ≠ [] ∧ G.Nodup ∧
        (∀ x ∈ G, optCell b x.1 x.2 = some opp) ∧
        ∃ n ∈ neighborsOf (r, c), ∃ bi : Board,
          (getGroup bi n.1 n.2).1 = G ∧ (getGroup bi n.1 n.2).2 = [] := by
  obtain ⟨Gs, h1, -, h3, h4⟩ :=
    captureFold_decomposition opp b (neighborsOf (r, c)) (b, 0) (opponentErased_refl opp b)
  refine ⟨Gs, ?_, h3, fun G hG => ?_⟩
  · show (List.foldl (captureStep opp) (b, 0) (neighborsOf (r, c))).2 = _
    rw [h1]
    omega
  · obtain ⟨hne, hnd, hopp, -, -, hroot⟩ := h4 G hG
    exact ⟨hne, hnd, hopp, hroot⟩

/-- C7: within one game (no reset), capture tallies never decrease and
after any run of operations each tally equals its initial value plus the
sum of the capture counts of the player's accepted moves; and each move's
capture count is exactly the total size of a list of pairwise-disjoint
whole opponent groups (each nonempty, duplicate-free, zero-liberty at
removal time, rooted at a neighbor of the placed stone), so every captured
group is counted exactly once even when adjacent to the placed stone on
several sides. -/
theorem C7_capture_tallies (s : GameState) (ops : List Op)
    (hops : ∀ op ∈ ops, op ≠ Op.reset) :
    (runOps s ops).blackScore = s.blackScore + totalGain Player.black s ops ∧
    (runOps s ops).whiteScore = s.whiteScore + totalGain Player.white s ops ∧
    s.blackScore ≤ (runOps s ops).blackScore ∧
    s.whiteScore ≤ (runOps s ops).whiteScore ∧
    (∀ (b : Board) (r0 c0 : Int) (opp : Player),
      ∃ Gs : List (List Pos),
        (captureScan b r0 c0 opp).2 = (Gs.map List.length).sum ∧
        Gs.Pairwise (fun g1 g2 => ∀ x ∈ g1, x ∉ g2) ∧
        ∀ G ∈ Gs, G ≠ [] ∧ G.Nodup ∧
          (∀ x ∈ G, optCell b x.1 x.2 = some opp) ∧
          ∃ n ∈ neighborsOf (r0, c0), ∃ bi : Board,
            (getGroup bi n.1 n.2).1 = G ∧ (getGroup bi n.1 n.2).2 = []) := by
  obtain ⟨hb, hw⟩ := runOps_scores s ops hops
  exact ⟨hb, hw, by omega, by omega,
    fun b r0 c0 opp => captureScan_decomposition b r0 c0 opp⟩

/-- C7 witness: Black's capturing move at (2,1) on the scenario-2 board
raises Black's tally from 0 to 1 = the total gain of the one-move run. -/
theorem C7_witness :
    (runOps sCapture [Op.click 2 1]).blackScore =
      sCapture.blackScore + totalGain Player.black sCapture [Op.click 2 1] ∧
    sCapture.whiteScore ≤ (runOps sCapture [Op.click 2 1]).whiteScore ∧
    totalGain Player.black sCapture [Op.click 2 1] = 1 := by
  have h := C7_capture_tallies sCapture [Op.click 2 1]
    (fun op hop => by
      rw [List.mem_singleton] at hop
      subst hop
      exact fun hh => Op.noConfusion hh)
  exact ⟨h.1, h.2.2.2.1, by decide⟩

/-! ## Helper lemmas for the no-dead-groups invariant (claim C9) -/

theorem opponentOf_ne (pl : Player) : opponentOf pl ≠ pl := by
  cases pl <;> simp [opponentOf]

theorem player_eq_or_opponent (pl mover : Player) : pl = mover ∨ pl = opponentOf mover := by
  cases pl <;> cases mover <;> simp [opponentOf]

/-- Reachability is monotone in the set of same-color stones. -/
theorem reach_mono {b b2 : Board} {player : Player}
    (hcell : ∀ x : Pos, stoneP b player x → stoneP b2 player x) {p q : Pos}
    (h : Reach b player p q) : Reach b2 player p q := by
  induction h with
  | refl => exact Relation.ReflTransGen.refl
  | tail _ hstep ih => exact Relation.ReflTransGen.tail ih ⟨hstep.1, hcell _ hstep.2⟩

/-- A stone's group has a liberty iff some empty in-bounds cell is adjacent
to its component. -/
theorem getGroup_libs_ne_nil_iff {b : Board} {pl : Player} {p : Pos}
    (hsp : stoneP b pl p) :
    (getGroup b p.1 p.2).2 ≠ [] ↔
      ∃ l x : Pos, Reach b pl p x ∧ adjTo x l ∧ libCell b l := by
  obtain ⟨-, hlb, -, -⟩ := getGroup_spec hsp.2 hsp.1
  constructor
  · intro hne
    obtain ⟨l, hl⟩ := List.exists_mem_of_ne_nil _ hne
    obtain ⟨hlc, x, hx, hadj⟩ := (hlb l).mp hl
    exact ⟨l, x, hx, hadj, hlc⟩
  · rintro ⟨l, x, hx, hadj, hlc⟩
    exact List.ne_nil_of_mem ((hlb l).mpr ⟨hlc, x, hx, hadj⟩)

/-- Liberties are nonempty at any other stone of the same group. -/
theorem getGroup_libs_ne_nil_of_mem {b : Board} {r c : Int} {p : Pos}
    (hp : p ∈ (getGroup b r c).1) (hne : (getGroup b r c).2 ≠ []) :
    (getGroup b p.1 p.2).2 ≠ [] := by
  obtain ⟨l, hl⟩ := List.exists_mem_of_ne_nil _ hne
  exact List.ne_nil_of_mem (((getGroup_idem hp).2 l).mpr hl)

/-- Conversely, a zero-liberty group forces zero liberties at each member. -/
theorem getGroup_libs_nil_of_mem {b : Board} {r c : Int} {p : Pos}
    (hp : p ∈ (getGroup b r c).1) (hnil : (getGroup b p.1 p.2).2 = []) :
    (getGroup b r c).2 = [] := by
  rw [List.eq_nil_iff_forall_not_mem]
  intro l hl
  have := ((getGroup_idem hp).2 l).mpr hl
  rw [hnil] at this
  exact absurd this (List.not_mem_nil _)

/-- Two stones in one group see the same stone set. -/
theorem getGroup_stones_disjoint {b : Board} {z w : Pos}
    (hzw : w ∈ (getGroup b z.1 z.2).1) {v : Pos} (hv : v ∈ (getGroup b w.1 w.2).1) :
    v ∈ (getGroup b z.1 z.2).1 :=
  ((getGroup_idem hzw).1 v).mp hv

/-! ## Well-formed boards are preserved by every write the engine makes -/

theorem proper_setCell {b : Board} {r c : Int} {v : Option Player} (hp : proper b) :
    proper (setCell b r c v) := by
  unfold setCell
  cases hjr : jsIndex b r with
  | none => exact hp
  | some row =>
    have hrowmem : row ∈ b := by
      obtain ⟨-, hlt, hget⟩ := jsIndex_eq_some_iff.mp hjr
      rw [← hget]
      exact List.get_mem b _ hlt
    constructor
    · rw [List.length_set]
      exact hp.1
    · intro y hy
      rcases List.mem_or_eq_of_mem_set hy with hy2 | rfl
      · exact hp.2 y hy2
      · rw [List.length_set]
        exact hp.2 row hrowmem

theorem proper_removeStones {opp : Player} {stones : List Pos} {acc : Board × Nat}
    (hp : proper acc.1) : proper (removeStones opp stones acc).1 := by
  induction stones generalizing acc with
  | nil => exact hp
  | cons s rest ih =>
    rw [removeStones_cons]
    by_cases hg : optCell acc.1 s.1 s.2 = some opp
    · rw [if_pos hg]
      exact ih (proper_setCell hp)
    · rw [if_neg hg]
      exact ih hp

theorem proper_captureStep {opp : Player} {acc : Board × Nat} {n : Pos}
    (hp : proper acc.1) : proper (captureStep opp acc n).1 := by
  unfold captureStep
  split
  · split
    · exact proper_removeStones hp
    · exact hp
  · exact hp

theorem proper_captureScan {b : Board} {r c : Int} {opp : Player} (hp : proper b) :
    proper (captureScan b r c opp).1 := by
  unfold captureScan
  generalize neighborsOf (r, c) = ns
  have : ∀ (ns : List Pos) (acc : Board × Nat), proper acc.1 →
      proper ((ns.foldl (captureStep opp) acc).1) := by
    intro ns
    induction ns with
    | nil => exact fun acc h => h
    | cons n ns ih =>
      intro acc h
      rw [List.foldl_cons]
      exact ih _ (proper_captureStep h)
  exact this ns (b, 0) hp

/-- On a well-formed board, a successful cell read pins the coordinates
inside the grid. -/
theorem inB_of_readCell {b : Board} {r c : Int} {x : Option Player}
    (hp : proper b) (h : readCell b r c = some x) : inB r c := by
  obtain ⟨row, hjr, hjc⟩ := readCell_eq_some_iff.mp h
  obtain ⟨hr0, hrlt, hget⟩ := jsIndex_eq_some_iff.mp hjr
  obtain ⟨hc0, hclt, -⟩ := jsIndex_eq_some_iff.mp hjc
  have hrow : row.length = BOARD_SIZE := by
    apply hp.2
    rw [← hget]
    exact List.get_mem b _ hrlt
  have hb := hp.1
  unfold inB
  unfold BOARD_SIZE at hb hrow ⊢
  omega

theorem readCell_createEmptyBoard {r c : Int} (h : inB r c) :
    readCell createEmptyBoard r c = some none := by
  obtain ⟨h0r, hr, h0c, hc⟩ := h
  unfold createEmptyBoard readCell
  rw [jsIndex_nonneg h0r, List.getElem?_eq_getElem
    (by rw [List.length_replicate]; unfold BOARD_SIZE at hr ⊢; omega),
    List.getElem_replicate]
  simp only [Option.some_bind]
  rw [jsIndex_nonneg h0c, List.getElem?_eq_getElem
    (by rw [List.length_replicate]; unfold BOARD_SIZE at hc ⊢; omega),
    List.getElem_replicate]

theorem proper_createEmptyBoard : proper createEmptyBoard := by
  constructor
  · exact List.length_replicate ..
  · intro row hrow
    rw [List.eq_of_mem_replicate hrow]
    exact List.length_replicate ..

theorem noDeadGroups_createEmptyBoard : noDeadGroups createEmptyBoard := by
  intro p hpb pl hopt
  rw [show optCell createEmptyBoard p.1 p.2 =
      (readCell createEmptyBoard p.1 p.2).bind id from rfl,
    readCell_createEmptyBoard hpb] at hopt
  exact absurd hopt (by simp)

theorem getGroup_libs_nil_at_mem {b : Board} {r c : Int} {p : Pos}
    (hp : p ∈ (getGroup b r c).1) (hnil : (getGroup b r c).2 = []) :
    (getGroup b p.1 p.2).2 = [] := by
  rw [List.eq_nil_iff_forall_not_mem]
  intro l hl
  have hmem := ((getGroup_idem hp).2 l).mp hl
  rw [hnil] at hmem
  exact absurd hmem (List.not_mem_nil _)

/-! ## Surviving opponent groups keep their stones and can only gain
liberties when a whole group is removed -/

theorem removal_preserves_group {opp : Player} {B B2 : Board} {n : Pos}
    (hn : stoneP B opp n)
    (hcells : ∀ x : Pos, readCell B2 x.1 x.2 =
      if x ∈ (getGroup B n.1 n.2).1 then some none else readCell B x.1 x.2)
    {z : Pos} (hz : stoneP B2 opp z) :
    stoneP B opp z ∧ z ∉ (getGroup B n.1 n.2).1 ∧
    (∀ w, Reach B opp z w ↔ Reach B2 opp z w) ∧
    (∀ l, l ∈ (getGroup B z.1 z.2).2 → l ∈ (getGroup B2 z.1 z.2).2) := by
  obtain ⟨hstG, -, -, -⟩ := getGroup_spec hn.2 hn.1
  -- reading a survivor: it is not in the removed group and was a stone before
  have hsurvive : ∀ x : Pos, stoneP B2 opp x →
      stoneP B opp x ∧ x ∉ (getGroup B n.1 n.2).1 := by
    intro x hx
    have hrx := optCell_eq_some_iff.mp hx.2
    have hc := hcells x
    by_cases hmem : x ∈ (getGroup B n.1 n.2).1
    · rw [if_pos hmem, hrx] at hc
      exact absurd hc (by simp)
    · rw [if_neg hmem, hrx] at hc
      exact ⟨⟨hx.1, optCell_eq_some_iff.mpr hc.symm⟩, hmem⟩
  obtain ⟨hzB, hznG⟩ := hsurvive z hz
  -- stones reachable from z never meet the removed group
  have havoid : ∀ w, Reach B opp z w → w ∉ (getGroup B n.1 n.2).1 := by
    intro w hw hwG
    have hnw : Reach B opp n w := (hstG w).mp hwG
    have hzn : Reach B opp z n := Relation.ReflTransGen.trans hw (reach_symm hn hnw)
    exact hznG ((hstG z).mpr (reach_symm hzB hzn))
  have hforward : ∀ w, Reach B opp z w → Reach B2 opp z w := by
    intro w hw
    induction hw with
    | refl => exact Relation.ReflTransGen.refl
    | tail hax hstep ih =>
      rename_i x y
      have hyB : Reach B opp z y := Relation.ReflTransGen.tail hax hstep
      have hynG : y ∉ (getGroup B n.1 n.2).1 := havoid y hyB
      have hy2 : stoneP B2 opp y := by
        have hc := hcells y
        rw [if_neg hynG, optCell_eq_some_iff.mp hstep.2.2] at hc
        exact ⟨hstep.2.1, optCell_eq_some_iff.mpr hc⟩
      exact Relation.ReflTransGen.tail ih ⟨hstep.1, hy2⟩
  refine ⟨hzB, hznG,
    fun w => ⟨hforward w, fun hw => reach_mono (fun x hx => (hsurvive x hx).1) hw⟩, ?_⟩
  intro l hl
  obtain ⟨-, hlbB, -, -⟩ := getGroup_spec hzB.2 hzB.1
  obtain ⟨-, hlbB2, -, -⟩ := getGroup_spec hz.2 hz.1
  obtain ⟨hlc, x, hx, hadj⟩ := (hlbB l).mp hl
  refine (hlbB2 l).mpr ⟨⟨hlc.1, ?_⟩, x, hforward x hx, hadj⟩
  have hc := hcells l
  by_cases hmem : l ∈ (getGroup B n.1 n.2).1
  · rw [if_pos hmem] at hc
    exact hc
  · rw [if_neg hmem] at hc
    rw [hc]
    exact hlc.2

/-- The capture scan preserves the property that every in-bounds
zero-liberty opponent group contains an unscanned neighbor of the placed
stone; when the neighbor list is exhausted, no zero-liberty opponent group
survives. -/
theorem scanInv_fold (opp : Player) :
    ∀ (ns : List Pos) (acc : Board × Nat),
      (∀ z : Pos, inB z.1 z.2 → optCell acc.1 z.1 z.2 = some opp →
        (getGroup acc.1 z.1 z.2).2 = [] → ∃ n ∈ ns, n ∈ (getGroup acc.1 z.1 z.2).1) →
      ∀ z : Pos, inB z.1 z.2 →
        optCell ((ns.foldl (captureStep opp) acc).1) z.1 z.2 = some opp →
        (getGroup ((ns.foldl (captureStep opp) acc).1) z.1 z.2).2 ≠ [] := by
  intro ns
  induction ns with
  | nil =>
    intro acc hSI z hzb hzopp hnil
    obtain ⟨n, hn, -⟩ := hSI z hzb hzopp hnil
    exact absurd hn (List.not_mem_nil _)
  | cons n ns ih =>
    intro acc hSI z hzb hzopp
    rw [List.foldl_cons] at hzopp ⊢
    refine ih (captureStep opp acc n) ?_ z hzb hzopp
    -- show the invariant transfers from `n :: ns` at `acc` to `ns` at the
    -- post-step board
    intro w hwb hwopp hwnil
    by_cases hg : inB n.1 n.2 ∧ optCell acc.1 n.1 n.2 = some opp
    · by_cases hlibs : (getGroup acc.1 n.1 n.2).2 = []
      · -- the neighbor's group was captured and removed
        have hstep : captureStep opp acc n =
            removeStones opp (getGroup acc.1 n.1 n.2).1 acc := by
          unfold captureStep
          rw [if_pos hg, if_pos hlibs]
        obtain ⟨-, -, hnd, -⟩ := getGroup_spec hg.2 hg.1
        have hGopp : ∀ x ∈ (getGroup acc.1 n.1 n.2).1,
            optCell acc.1 x.1 x.2 = some opp := by
          intro x hx
          rw [(getGroup_stones_props hx).2]
          exact hg.2
        obtain ⟨-, hcells⟩ := removeStones_char hnd hGopp
        rw [hstep] at hwopp hwnil ⊢
        have hw2 : stoneP (removeStones opp (getGroup acc.1 n.1 n.2).1 acc).1 opp w :=
          ⟨hwb, hwopp⟩
        obtain ⟨hwB, hwnG, hreach, hlibmono⟩ :=
          removal_preserves_group ⟨hg.1, hg.2⟩ hcells hw2
        -- the survivor's group had zero liberties already before the removal
        have hwnilB : (getGroup acc.1 w.1 w.2).2 = [] := by
          rw [List.eq_nil_iff_forall_not_mem]
          intro l hl
          have := hlibmono l hl
          rw [hwnil] at this
          exact absurd this (List.not_mem_nil _)
        obtain ⟨n2, hn2, hn2mem⟩ := hSI w hwb hwB.2 hwnilB
        have hn2ne : n2 ≠ n := by
          rintro rfl
          -- n2 = n would put the removed group inside the survivor's group
          have : n2 ∈ (getGroup acc.1 n2.1 n2.2).1 :=
            getGroup_start_mem hg.2 hg.1
          exact (removal_preserves_group ⟨hg.1, hg.2⟩ hcells hw2).2.1
            (by
              have hreachwn : Reach acc.1 opp w n2 :=
                ((getGroup_spec hwB.2 hwB.1).1 n2).mp hn2mem
              have hreachn : Reach acc.1 opp n2 w := reach_symm hwB hreachwn
              exact ((getGroup_spec hg.2 hg.1).1 w).mpr hreachn)
        refine ⟨n2, ?_, ?_⟩
        · rcases List.mem_cons.mp hn2 with rfl | h2
          · exact absurd rfl hn2ne
          · exact h2
        · -- membership carries over since the surviving group is unchanged
          have hreachwn : Reach acc.1 opp w n2 :=
            ((getGroup_spec hwB.2 hwB.1).1 n2).mp hn2mem
          exact ((getGroup_spec hwopp hwb).1 n2).mpr ((hreach n2).mp hreachwn)
      · -- the neighbor's group kept a liberty: the board is unchanged
        have hstep : captureStep opp acc n = acc := by
          unfold captureStep
          rw [if_pos hg, if_neg hlibs]
        rw [hstep] at hwopp hwnil ⊢
        obtain ⟨n2, hn2, hn2mem⟩ := hSI w hwb hwopp hwnil
        refine ⟨n2, ?_, hn2mem⟩
        rcases List.mem_cons.mp hn2 with rfl | h2
        · -- n2 = n: then n sits in w's zero-liberty group, contradicting hlibs
          exfalso
          exact hlibs (getGroup_libs_nil_at_mem hn2mem hwnil)
        · exact h2
    · -- the neighbor is not an in-bounds opponent stone: board unchanged
      have hstep : captureStep opp acc n = acc := by
        unfold captureStep
        rw [if_neg hg]
      rw [hstep] at hwopp hwnil ⊢
      obtain ⟨n2, hn2, hn2mem⟩ := hSI w hwb hwopp hwnil
      refine ⟨n2, ?_, hn2mem⟩
      rcases List.mem_cons.mp hn2 with rfl | h2
      · exfalso
        have hprops := getGroup_stones_props hn2mem
        exact hg ⟨hprops.1, by rw [hprops.2]; exact hwopp⟩
      · exact h2

theorem captureScan_erased (b : Board) (r c : Int) (opp : Player) :
    opponentErased opp b (captureScan b r c opp).1 := by
  obtain ⟨Gs, -, h, -, -⟩ := captureFold_decomposition opp b (neighborsOf (r, c)) (b, 0)
    (opponentErased_refl opp b)
  exact h

theorem handleCellClick_board_of_accepted {s : GameState} {r c : Int}
    (hacc : (handleCellClick s r c).1 = ClickResult.accepted) :
    (handleCellClick s r c).2.1.board =
      (captureScan (setCell s.board r c (some s.currentPlayer)) r c
        (opponentOf s.currentPlayer)).1 := by
  obtain ⟨hgo, hempty⟩ := accepted_inversion hacc
  have hnotfull := accepted_not_full hgo hempty hacc
  have heq := handleCellClick_empty_eq hgo hempty
  have hcond : ¬ ((getGroup (captureScan (setCell s.board r c (some s.currentPlayer)) r c
        (opponentOf s.currentPlayer)).1 r c).2 = []
      ∧ (captureScan (setCell s.board r c (some s.currentPlayer)) r c
        (opponentOf s.currentPlayer)).2 = 0) := by
    intro hcond
    rw [heq, if_pos hcond] at hacc
    exact absurd hacc (by simp)
  have hclick : handleCellClick s r c =
      (ClickResult.accepted, commitClick s
        (captureScan (setCell s.board r c (some s.currentPlayer)) r c
          (opponentOf s.currentPlayer)).1
        (captureScan (setCell s.board r c (some s.currentPlayer)) r c
          (opponentOf s.currentPlayer)).2
        (opponentOf s.currentPlayer)) := by
    rw [heq, if_neg hcond]
  rw [hclick, commitClick_not_full hnotfull]

/-- One accepted click preserves the no-dead-groups invariant. -/
theorem click_preserves_noDeadGroups {s : GameState} {r c : Int}
    (hp : proper s.board) (hInv : noDeadGroups s.board)
    (hacc : (handleCellClick s r c).1 = ClickResult.accepted) :
    noDeadGroups (handleCellClick s r c).2.1.board := by
  obtain ⟨hgo, hempty⟩ := accepted_inversion hacc
  have hib : inB r c := inB_of_readCell hp hempty
  have hr0 : (0 : Int) ≤ r := hib.1
  have hc0 : (0 : Int) ≤ c := hib.2.2.1
  set mover := s.currentPlayer with hmover
  set opp := opponentOf s.currentPlayer with hopp
  set B0 := setCell s.board r c (some s.currentPlayer) with hB0
  set B2 := (captureScan B0 r c opp).1 with hB2
  have hb : (handleCellClick s r c).2.1.board = B2 := handleCellClick_board_of_accepted hacc
  have hB0pos : readCell B0 r c = some (some mover) := readCell_setCell_self hempty
  have hB0other : ∀ x : Pos, x ≠ (r, c) →
      readCell B0 x.1 x.2 = readCell s.board x.1 x.2 := by
    intro x hx
    exact readCell_setCell_ne hr0 hc0 hx
  have herased : opponentErased opp B0 B2 := captureScan_erased B0 r c opp
  have hposempty : optCell s.board r c = none := optCell_of_readCell_none hempty
  -- mover-colored cells agree between the tentative and the scanned board
  have hmoverB2 : ∀ x : Pos,
      optCell B2 x.1 x.2 = some mover ↔ optCell B0 x.1 x.2 = some mover := by
    intro x
    constructor
    · intro h
      rcases herased x.1 x.2 with heq | ⟨-, hnull⟩
      · unfold optCell at h ⊢
        rw [← heq]
        exact h
      · rw [optCell_eq_some_iff.mp h] at hnull
        exact absurd hnull (by simp)
    · intro h
      rcases herased x.1 x.2 with heq | ⟨hopp2, -⟩
      · unfold optCell
        rw [heq]
        exact h
      · rw [h] at hopp2
        have : mover = opp := Option.some.inj hopp2
        exact absurd this.symm (opponentOf_ne mover)
  have hnullB2 : ∀ x : Pos, readCell B0 x.1 x.2 = some none →
      readCell B2 x.1 x.2 = some none := by
    intro x h
    rcases herased x.1 x.2 with heq | ⟨-, hnull⟩
    · rw [heq]
      exact h
    · exact hnull
  have hposB2 : stoneP B2 mover (r, c) := by
    refine ⟨hib, (hmoverB2 (r, c)).mpr ?_⟩
    show optCell B0 r c = some mover
    unfold optCell
    rw [hB0pos]
    rfl
  -- Part 1: the placed stone's group keeps a liberty
  have hcond : ¬ ((getGroup B2 r c).2 = [] ∧ (captureScan B0 r c opp).2 = 0) := by
    intro hcond
    rw [handleCellClick_empty_eq hgo hempty, if_pos hcond] at hacc
    exact absurd hacc (by simp)
  have hmy : (getGroup B2 r c).2 ≠ [] := by
    rcases Decidable.not_and_iff_or_not.mp hcond with hlibs | hcap
    · exact hlibs
    · -- a capture happened: the vacated root neighbor is a liberty of the
      -- placed stone's group
      obtain ⟨Gs, hsum, -, -, hprops⟩ := captureFold_decomposition opp B0
        (neighborsOf (r, c)) (B0, 0) (opponentErased_refl opp B0)
      have hGsne : Gs ≠ [] := by
        rintro rfl
        exact hcap (by rw [show (captureScan B0 r c opp).2 =
          (List.foldl (captureStep opp) (B0, 0) (neighborsOf (r, c))).2 from rfl, hsum]; rfl)
      obtain ⟨G, hG⟩ := List.exists_mem_of_ne_nil _ hGsne
      obtain ⟨hGne, -, -, -, hGnull, n, hn, bi, hGeq, -⟩ := hprops G hG
      obtain ⟨x0, hx0⟩ := List.exists_mem_of_ne_nil _ hGne
      rw [← hGeq] at hx0
      obtain ⟨pl0, hpl0, hbi0⟩ := mem_stones_inv hx0
      have hnG : n ∈ G := by
        rw [← hGeq]
        exact getGroup_start_mem hpl0 hbi0
      have hninB : inB n.1 n.2 := by
        rw [← hGeq] at hnG
        exact (getGroup_stones_props hnG).1
      have hnnull : readCell B2 n.1 n.2 = some none := by
        have := hGnull n hnG
        exact this
      obtain ⟨-, hlb, -, -⟩ := getGroup_spec hposB2.2 hposB2.1
      exact List.ne_nil_of_mem ((hlb n).mpr
        ⟨⟨hninB, hnnull⟩, (r, c), Relation.ReflTransGen.refl, hn⟩)
  -- Part 2: every mover-colored group keeps a liberty
  have hmoverSide : ∀ z : Pos, inB z.1 z.2 → optCell B2 z.1 z.2 = some mover →
      (getGroup B2 z.1 z.2).2 ≠ [] := by
    intro z hzb hzm
    have hz2 : stoneP B2 mover z := ⟨hzb, hzm⟩
    by_cases hmem : ((r, c) : Pos) ∈ (getGroup B2 z.1 z.2).1
    · intro hnil
      exact hmy (getGroup_libs_nil_at_mem hmem hnil)
    · have hzne : z ≠ (r, c) := by
        rintro rfl
        exact hmem (getGroup_start_mem hz2.2 hz2.1)
      have hzB0 : optCell B0 z.1 z.2 = some mover := (hmoverB2 z).mp hzm
      have hzb0 : readCell s.board z.1 z.2 = some (some mover) := by
        rw [← hB0other z hzne]
        exact optCell_eq_some_iff.mp hzB0
      have hzB : stoneP s.board mover z := ⟨hzb, optCell_eq_some_iff.mpr hzb0⟩
      have hmono : ∀ x : Pos, stoneP s.board mover x → stoneP B2 mover x := by
        intro x hx
        have hxne : x ≠ (r, c) := by
          rintro rfl
          have hx2 : optCell s.board r c = some mover := hx.2
          rw [hposempty] at hx2
          exact absurd hx2 (by simp)
        refine ⟨hx.1, (hmoverB2 x).mpr ?_⟩
        unfold optCell
        rw [hB0other x hxne]
        exact hx.2
      have hlibs_b : (getGroup s.board z.1 z.2).2 ≠ [] :=
        hInv z hzb mover (optCell_eq_some_iff.mpr hzb0)
      obtain ⟨l, x, hx, hadj, hlc⟩ := (getGroup_libs_ne_nil_iff hzB).mp hlibs_b
      have hxB2 : Reach B2 mover z x := reach_mono hmono hx
      by_cases hlpos : l = (r, c)
      · subst hlpos
        exact absurd (((getGroup_spec hzm hzb).1 (r, c)).mpr
          (Relation.ReflTransGen.tail hxB2 ⟨hadj, hposB2⟩)) hmem
      · have hlB0 : readCell B0 l.1 l.2 = some none := by
          rw [hB0other l hlpos]
          exact hlc.2
        exact (getGroup_libs_ne_nil_iff hz2).mpr
          ⟨l, x, hxB2, hadj, ⟨hlc.1, hnullB2 l hlB0⟩⟩
  -- Part 3: every opponent-colored group keeps a liberty (scan invariant)
  have hoppSide : ∀ z : Pos, inB z.1 z.2 → optCell B2 z.1 z.2 = some opp →
      (getGroup B2 z.1 z.2).2 ≠ [] := by
    have hfold : B2 = ((neighborsOf (r, c)).foldl (captureStep opp) (B0, 0)).1 := rfl
    rw [hfold]
    apply scanInv_fold opp (neighborsOf (r, c)) (B0, 0)
    -- initial scan invariant on the tentative board
    intro z hzb hzopp hznil
    have hznil2 : (getGroup B0 z.1 z.2).2 = [] := hznil
    have hzne : z ≠ (r, c) := by
      rintro rfl
      have h1 : optCell B0 r c = some mover := by
        unfold optCell
        rw [hB0pos]
        rfl
      have h2 : optCell B0 r c = some opp := hzopp
      rw [h1] at h2
      exact absurd (Option.some.inj h2).symm (opponentOf_ne mover)
    have hzoppb : optCell s.board z.1 z.2 = some opp := by
      unfold optCell
      rw [← hB0other z hzne]
      exact hzopp
    -- opponent stones are the same cells in the original and tentative boards
    have hcellopp : ∀ x : Pos, stoneP s.board opp x ↔ stoneP B0 opp x := by
      intro x
      constructor
      · intro hx
        have hxne : x ≠ (r, c) := by
          rintro rfl
          have hx2 : optCell s.board r c = some opp := hx.2
          rw [hposempty] at hx2
          exact absurd hx2 (by simp)
        refine ⟨hx.1, ?_⟩
        unfold optCell
        rw [hB0other x hxne]
        exact hx.2
      · intro hx
        have hxne : x ≠ (r, c) := by
          rintro rfl
          have hx2 : optCell B0 r c = some opp := hx.2
          unfold optCell at hx2
          rw [hB0pos] at hx2
          exact absurd (Option.some.inj hx2).symm (opponentOf_ne mover)
        refine ⟨hx.1, ?_⟩
        unfold optCell
        rw [← hB0other x hxne]
        exact hx.2
    have hzspB : stoneP s.board opp z := ⟨hzb, hzoppb⟩
    have hzspB0 : stoneP B0 opp z := (hcellopp z).mp hzspB
    have hlibs_b : (getGroup s.board z.1 z.2).2 ≠ [] := hInv z hzb opp hzoppb
    obtain ⟨l, x, hx, hadj, hlc⟩ := (getGroup_libs_ne_nil_iff hzspB).mp hlibs_b
    have hxB0 : Reach B0 opp z x := reach_mono (fun v hv => (hcellopp v).mp hv) hx
    by_cases hlpos : l = (r, c)
    · subst hlpos
      refine ⟨x, ?_, ((getGroup_spec hzspB0.2 hzspB0.1).1 x).mpr hxB0⟩
      exact adjTo_symm hadj
    · exfalso
      have hlB0 : readCell B0 l.1 l.2 = some none := by
        rw [hB0other l hlpos]
        exact hlc.2
      have hmem2 : l ∈ (getGroup B0 z.1 z.2).2 := by
        obtain ⟨-, hlb, -, -⟩ := getGroup_spec hzspB0.2 hzspB0.1
        exact (hlb l).mpr ⟨⟨hlc.1, hlB0⟩, x, hxB0, hadj⟩
      rw [hznil2] at hmem2
      exact absurd hmem2 (List.not_mem_nil _)
  rw [hb]
  intro z hzb pl hzpl
  rcases player_eq_or_opponent pl s.currentPlayer with rfl | rfl
  · exact hmoverSide z hzb hzpl
  · exact hoppSide z hzb hzpl

/-- Reachable sessions have well-formed boards on which no group of either
color is left without a liberty. -/
theorem reachable_inv {s : GameState} (h : Reachable s) :
    proper s.board ∧ noDeadGroups s.board := by
  induction h with
  | init => exact ⟨proper_createEmptyBoard, noDeadGroups_createEmptyBoard⟩
  | step hs op ih =>
    rename_i t
    cases op with
    | click r c =>
      by_cases hacc : (handleCellClick t r c).1 = ClickResult.accepted
      · constructor
        · rw [show (applyOp t (Op.click r c)) = (handleCellClick t r c).2.1 from rfl,
            handleCellClick_board_of_accepted hacc]
          exact proper_captureScan (proper_setCell ih.1)
        · exact click_preserves_noDeadGroups ih.1 ih.2 hacc
      · rw [show (applyOp t (Op.click r c)) = (handleCellClick t r c).2.1 from rfl,
          handleCellClick_state_of_not_accepted hacc]
        exact ih
    | pass =>
      have hbd : (applyOp t Op.pass).board = t.board := by
        show (handlePass t).1.board = t.board
        unfold handlePass
        split <;> rfl
      rw [hbd]
      exact ih
    | resign =>
      have hbd : (applyOp t Op.resign).board = t.board := by
        show (handleResign t).1.board = t.board
        unfold handleResign
        split <;> rfl
      rw [hbd]
      exact ih
    | reset =>
      exact ⟨proper_createEmptyBoard, noDeadGroups_createEmptyBoard⟩

/-- C9: on every board reachable from the initial empty board through the
click, pass, resign and reset handlers, no group of either color has zero
liberties — every stone's group has an adjacent empty intersection
(capture resolution removes zero-liberty opponent groups and the suicide
check bars zero-liberty own groups; no other operation adds stones). -/
theorem C9_no_dead_groups (s : GameState) (hs : Reachable s) (p : Pos)
    (hpb : inB p.1 p.2) (pl : Player) (hstone : optCell s.board p.1 p.2 = some pl) :
    (getGroup s.board p.1 p.2).2 ≠ [] :=
  (reachable_inv hs).2 p hpb pl hstone

set_option maxRecDepth 16000 in
/-- C9 witness: after Black's first move at (0,0), the placed stone's group
has a liberty. -/
theorem C9_witness :
    (getGroup (applyOp initialState (Op.click 0 0)).board 0 0).2 ≠ [] :=
  C9_no_dead_groups (applyOp initialState (Op.click 0 0))
    (Reachable.step Reachable.init (Op.click 0 0)) (0, 0) (by decide)
    Player.black (by decide)

end GoDojo
